import Mathlib

set_option maxRecDepth 8000

/-
  Shallow embedding of the ludwig task orchestrator (Go) in Lean 4.

  Source files embedded:
    internal/orchestrator/orchestrator.go  (review-protocol parser, polling loop,
                                            task coordinators, string helpers)
    internal/orchestrator/git.go           (branch-name generation, BranchExists)
    internal/orchestrator/clients/gemini.go (rate-limit retry and model fallback)
    internal/storage/taskStorage.go        (task store mutations)
    internal/storage/streamingWriter.go    (response sink)

  Go strings are modelled as lists of characters (all data involved is ASCII,
  so bytes and characters coincide).  External effects (git, subprocesses,
  the file system, the clock) are modelled as explicit parameters or as
  emitted event traces.
-/

namespace Ludwig

/-- Go strings, modelled as lists of characters. -/
abbrev GoStr := List Char

/-- Character list of a Lean string literal. -/
def gs (s : String) : GoStr := s.data

/-- The whitespace test hard-coded in `trim` (internal/orchestrator/orchestrator.go):
space, newline, tab, carriage return. -/
def isSpaceGo (c : Char) : Bool := c = ' ' || c = '\n' || c = '\t' || c = '\r'

/-- `trim` from internal/orchestrator/orchestrator.go: strips the four
whitespace characters from both ends of the string. -/
def trimGo (s : GoStr) : GoStr :=
  ((s.dropWhile isSpaceGo).reverse.dropWhile isSpaceGo).reverse

/-- `hasPrefix` from internal/orchestrator/orchestrator.go:
`len(s) >= len(p) && s[:len(p)] == p`. -/
def hasPrefixGo (s p : GoStr) : Bool := p.isPrefixOf s

/-- `trimPrefix` from internal/orchestrator/orchestrator.go. -/
def trimPrefixGo (s p : GoStr) : GoStr :=
  if hasPrefixGo s p then s.drop p.length else s

/-- Scanning helper for `indexOf` (internal/orchestrator/orchestrator.go):
first match position of `sep`, scanning positions `i <= len(s) - len(sep)`. -/
def indexOfAuxGo (sep : GoStr) : GoStr → Nat → Option Nat
  | [], i => if sep.isEmpty then some i else none
  | c :: rest, i =>
    if hasPrefixGo (c :: rest) sep then some i else indexOfAuxGo sep rest (i + 1)

/-- `indexOf` from internal/orchestrator/orchestrator.go (`none` stands for
Go's `-1`). -/
def indexOfGo (s sep : GoStr) : Option Nat := indexOfAuxGo sep s 0

/-- `strings.Contains` as used in clients/gemini.go. -/
def containsGo (s sub : GoStr) : Bool := (indexOfGo s sub).isSome

/-- ASCII lowering of one character (`strings.ToLower` restricted to the ASCII
strings this code manipulates). -/
def toLowerCharGo (c : Char) : Char :=
  if 65 ≤ c.toNat ∧ c.toNat ≤ 90 then Char.ofNat (c.toNat + 32) else c

/-- `strings.ToLower` on ASCII strings. -/
def toLowerGo (s : GoStr) : GoStr := s.map toLowerCharGo

/-- `split` from internal/orchestrator/orchestrator.go, specialised to the
one-character separators it is actually called with (`"\n"` and `"|"`).
Empty pieces are kept, exactly as in the Go loop. -/
def splitCharGo (sep : Char) : GoStr → List GoStr
  | [] => [[]]
  | c :: rest =>
    if c = sep then [] :: splitCharGo sep rest
    else
      match splitCharGo sep rest with
      | [] => [[c]]
      | r :: rs => (c :: r) :: rs

/-- A review option `{id, label}` (internal/types/task.go). -/
structure ReviewOption where
  id : GoStr
  label : GoStr
deriving DecidableEq, Repr

/-- A review request (internal/types/task.go).  `createdAt` stands for the
`time.Now()` timestamp taken when the block is parsed. -/
structure ReviewRequest where
  question : GoStr
  options : List ReviewOption
  context : GoStr
  createdAt : Nat
deriving DecidableEq, Repr

/-- `parseOption` from internal/orchestrator/orchestrator.go: extracts an
option from a `- id: x | label: y` line. -/
def parseOption (line : GoStr) : Option ReviewOption :=
  if hasPrefixGo line (gs ("- id:")) = false then none
  else
    let rest := trimGo (trimPrefixGo line (gs ("- id:")))
    match splitCharGo '|' rest with
    | p0 :: p1 :: _ =>
      let oid := trimGo p0
      let labelPart := trimGo p1
      if hasPrefixGo labelPart (gs ("label:")) then
        some ⟨oid, trimGo (trimPrefixGo labelPart (gs ("label:")))⟩
      else none
    | _ => none

/-- One step of the line loop of `parseReviewBlock`
(internal/orchestrator/orchestrator.go).  State: (question, context, options). -/
def reviewLineStep (st : GoStr × GoStr × List ReviewOption) (rawLine : GoStr) :
    GoStr × GoStr × List ReviewOption :=
  let line := trimGo rawLine
  if hasPrefixGo line (gs ("Question:")) then
    (trimGo (trimPrefixGo line (gs ("Question:"))), st.2.1, st.2.2)
  else if hasPrefixGo line (gs ("Context:")) then
    (st.1, trimGo (trimPrefixGo line (gs ("Context:"))), st.2.2)
  else if hasPrefixGo line (gs ("- id:")) then
    match parseOption line with
    | some o => (st.1, st.2.1, st.2.2 ++ [o])
    | none => st
  else st

/-- `parseReviewBlock` from internal/orchestrator/orchestrator.go.  Rejects
(returns `none`) when the resulting question is empty. -/
def parseReviewBlock (now : Nat) (block : GoStr) : Option ReviewRequest :=
  let lines := splitCharGo '\n' block
  let st := lines.foldl reviewLineStep ([], [], [])
  if st.1 = [] then none
  else some ⟨st.1, st.2.2, st.2.1, now⟩

/-- The opening sentinel of the review protocol. -/
def needsReviewMarker : GoStr := gs ("---NEEDS_REVIEW---")

/-- The closing sentinel of the review protocol. -/
def endReviewMarker : GoStr := gs ("---END_REVIEW---")

/-- The inline sentinel scan of `parseReviewRequest`
(internal/orchestrator/orchestrator.go).  The Go loop is
`for i := 0; i < len(response)-len(marker); i++`, so a match is reported only
at positions `i` with `i + len(marker) < len(response)` — a sentinel sitting
at the very end of the string is NOT found (strict bound, as in the source). -/
def scanStrict (marker : GoStr) : GoStr → Nat → Option Nat
  | [], _ => none
  | c :: rest, i =>
    if marker.length < rest.length + 1 ∧ marker.isPrefixOf (c :: rest) = true
    then some i
    else scanStrict marker rest (i + 1)

/-- First strict match of `marker` in `s` (the opening-sentinel scan). -/
def findStrict (marker s : GoStr) : Option Nat := scanStrict marker s 0

/-- First strict match of `marker` in `s` at or after position `start`
(the closing-sentinel scan, which starts at `reviewStart`).  The strict bound
is against the full string, which agrees with scanning the dropped suffix. -/
def findStrictFrom (marker s : GoStr) (start : Nat) : Option Nat :=
  (scanStrict marker (s.drop start) 0).map (· + start)

/-- `parseReviewRequest` from internal/orchestrator/orchestrator.go.
Returns (WorkInProgress, ReviewRequest, hasReview). -/
def parseReviewRequest (now : Nat) (response : GoStr) :
    GoStr × Option ReviewRequest × Bool :=
  match findStrict needsReviewMarker response with
  | none => ([], none, false)
  | some i =>
    let reviewStart := i + needsReviewMarker.length
    match findStrictFrom endReviewMarker response reviewStart with
    | none => ([], none, false)
    | some reviewEnd =>
      let workInProgress := trimGo (response.take i)
      let reviewBlock := (response.take reviewEnd).drop reviewStart
      let review := parseReviewBlock now reviewBlock
      (workInProgress, review, review.isSome)

/-! ## internal/orchestrator/git.go -/

/-- The alphanumeric test of the `[^a-zA-Z0-9]+` regular expression in
`extractWords` (internal/orchestrator/git.go), via character codes. -/
def isAlnumGo (c : Char) : Bool :=
  (97 ≤ c.toNat && c.toNat ≤ 122) || (65 ≤ c.toNat && c.toNat ≤ 90) ||
  (48 ≤ c.toNat && c.toNat ≤ 57)

/-- `regexp.MustCompile("[^a-zA-Z0-9]+").Split(s, -1)`: the pieces of `s`
between maximal runs of non-alphanumeric characters, with an empty piece at
an end that starts or finishes with such a run.  `acc` is the current piece
reversed; `inSep` records that the previous character was a separator. -/
def splitRunsAux : GoStr → GoStr → Bool → List GoStr
  | [], acc, _ => [acc.reverse]
  | c :: rest, acc, inSep =>
    if isAlnumGo c then splitRunsAux rest (c :: acc) false
    else if inSep then splitRunsAux rest acc true
    else acc.reverse :: splitRunsAux rest [] true

/-- `extractWords` from internal/orchestrator/git.go: split on non-alphanumeric
runs, keep parts of length `> 2`, lowercase them.  (The `strings.TrimSpace`
in the loop is the identity on these parts, which contain no whitespace.) -/
def extractWordsGo (taskName : GoStr) : List GoStr :=
  ((splitRunsAux taskName [] false).filter
    (fun part => !part.isEmpty && decide (2 < part.length))).map toLowerGo

/-- Character kept by the `[^a-z0-9-]` filter of `toKebabCase`. -/
def isKebabKeepGo (c : Char) : Bool :=
  (97 ≤ c.toNat && c.toNat ≤ 122) || (48 ≤ c.toNat && c.toNat ≤ 57) || c = '-'

/-- The `-+` → `-` collapse of `toKebabCase`: runs of hyphens become one. -/
def collapseHyphensGo : GoStr → GoStr
  | [] => []
  | [c] => [c]
  | c1 :: c2 :: rest =>
    if c1 = '-' ∧ c2 = '-' then collapseHyphensGo (c2 :: rest)
    else c1 :: collapseHyphensGo (c2 :: rest)

/-- `strings.Trim(s, "-")`. -/
def trimCharGo (t : Char) (s : GoStr) : GoStr :=
  ((s.dropWhile (· = t)).reverse.dropWhile (· = t)).reverse

/-- `toKebabCase` from internal/orchestrator/git.go. -/
def toKebabCase (s : GoStr) : GoStr :=
  let s1 := s.map (fun c => if c = '_' then '-' else c)
  let s2 := s1.map (fun c => if c = ' ' then '-' else c)
  let s3 := s2.filter isKebabKeepGo
  let s4 := collapseHyphensGo s3
  trimCharGo '-' s4

/-- Decimal digit character. -/
def digitCharGo (d : Nat) : Char := Char.ofNat (48 + d)

/-- Reversed decimal digits of `n` (fuel-driven so that it evaluates by
kernel reduction; `fuel = n` always suffices). -/
def natDigitsAux : Nat → Nat → GoStr
  | 0, _ => []
  | _, 0 => []
  | fuel + 1, n + 1 => digitCharGo ((n + 1) % 10) :: natDigitsAux fuel ((n + 1) / 10)

/-- `fmt.Sprintf("%d", n)` for natural `n`. -/
def natToGoStr (n : Nat) : GoStr :=
  if n = 0 then ['0'] else (natDigitsAux n n).reverse

/-- `strings.Join(ws, sep)`. -/
def joinGo (sep : GoStr) : List GoStr → GoStr
  | [] => []
  | [w] => w
  | w :: ws => w ++ sep ++ joinGo sep ws

/-- `BranchExists` from internal/orchestrator/git.go.  The underlying
`git rev-parse --verify` invocation is the parameter `gitVerify`
(`none` = the command succeeded, `some e` = it failed with error `e`).
The Go function maps ANY failure to `(false, nil)`: it never returns a
non-nil error. -/
def branchExistsGo (gitVerify : GoStr → Option GoStr) (branchName : GoStr) :
    Bool × Option GoStr :=
  match gitVerify branchName with
  | none => (true, none)
  | some _ => (false, none)

/-- The uniqueness loop of `GenerateBranchName`.  The loop state is the
candidate `branchName` and the `counter` (starting at 1); Go loops forever,
which we totalise with `fuel` (`none` = fuel ran out; proven unreachable for
the finite branch sets the theorems use). -/
def genLoopGo (check : GoStr → Bool × Option GoStr) (base : GoStr) :
    Nat → GoStr → Nat → Option (Except GoStr GoStr)
  | 0, _, _ => none
  | fuel + 1, branchName, counter =>
    let r := check branchName
    match r.2 with
    | some e => some (.error e)
    | none =>
      if r.1 = false then some (.ok branchName)
      else genLoopGo check base fuel (base ++ '-' :: natToGoStr counter) (counter + 1)

/-- The *no-valid-name* error message of `GenerateBranchName`. -/
def noValidNameMsg (taskName : GoStr) : GoStr :=
  gs ("unable to generate branch name from task: ") ++ taskName

/-- `GenerateBranchName` from internal/orchestrator/git.go, with the
branch-existence check abstracted as `check` and the endless `for` loop
totalised by `fuel`. -/
def generateBranchName (check : GoStr → Bool × Option GoStr) (fuel : Nat)
    (taskName : GoStr) : Option (Except GoStr GoStr) :=
  let words := extractWordsGo taskName
  if words.length = 0 then some (.error (noValidNameMsg taskName))
  else
    let maxWords := if words.length < 3 then words.length else 3
    let joined := joinGo (gs ("-")) (words.take maxWords)
    let kebab := toKebabCase joined
    let truncated := if 40 < kebab.length then kebab.take 40 else kebab
    let base := gs ("ludwig/") ++ truncated
    genLoopGo check base fuel base 1

/-- A git world in which exactly the branches in `existing` exist:
`git rev-parse --verify` succeeds on members and fails otherwise. -/
def gitVerifyOfList (existing : List GoStr) : GoStr → Option GoStr :=
  fun b => if b ∈ existing then none else some (gs ("exit status 1"))

/-- The spec-mandated slug: lowercase and hyphenate the first three surviving
tokens, truncate to 40 characters, prefix the constant namespace. -/
def specSlug (taskName : GoStr) : GoStr :=
  gs ("ludwig/") ++
    (joinGo (gs ("-")) ((extractWordsGo taskName).take 3)).take 40

/-- The k-th branch-name candidate tried by the uniqueness loop:
the base slug, then `base-1`, `base-2`, …. -/
def candidateName (base : GoStr) : Nat → GoStr
  | 0 => base
  | k + 1 => base ++ '-' :: natToGoStr (k + 1)

/-- The base name `GenerateBranchName` computes before the uniqueness loop
(the `baseName` local of internal/orchestrator/git.go). -/
def codeBase (tn : GoStr) : GoStr :=
  let words := extractWordsGo tn
  let maxWords := if words.length < 3 then words.length else 3
  let kebab := toKebabCase (joinGo (gs ("-")) (words.take maxWords))
  gs ("ludwig/") ++ (if 40 < kebab.length then kebab.take 40 else kebab)

/-! ## internal/orchestrator/clients/gemini.go -/

/-- `isRateLimitError` from clients/gemini.go: case-insensitive substring
signals in the accumulated response or in the error text. -/
def isRateLimitError (response : GoStr) (err : Option GoStr) : Bool :=
  (!response.isEmpty &&
    (let lr := toLowerGo response
     containsGo lr (gs ("resource has been exhausted")) ||
     containsGo lr (gs ("429")) ||
     containsGo lr (gs ("rate limit")) ||
     containsGo lr (gs ("too many requests")))) ||
  (match err with
   | none => false
   | some e =>
     let le := toLowerGo e
     containsGo le (gs ("resource has been exhausted")) ||
     containsGo le (gs ("429")) ||
     containsGo le (gs ("rate limit")) ||
     containsGo le (gs ("too many requests")))

/-- `buildRetryPrompt` from clients/gemini.go: the original prompt, the
partial response bracketed by sentinel markers, and a continuation
instruction; the original prompt unchanged when there was no partial
response. -/
def buildRetryPrompt (originalPrompt lastWork : GoStr) : GoStr :=
  if lastWork.isEmpty then originalPrompt
  else
    originalPrompt ++
    gs ("\n\n---\n\n[PREVIOUS WORK COMPLETED ON RETRY]:\n") ++
    lastWork ++
    gs ("\n[END PREVIOUS WORK]\n\nPlease review the above work. If it appears complete, confirm that and provide a summary. If it\x27s incomplete, continue from where it left off to finish the task.")

/-- Outcome of one `executeStreamInDir` invocation: the accumulated stdout
text and the error, if any.  The environment is an oracle from the attempt
index to this outcome. -/
abbrev ExecOracle := Nat → GoStr × Option GoStr

/-- Record of one attempt made by `SendPromptWithModelAndDir`. -/
structure Attempt where
  idx : Nat
  promptUsed : GoStr
  response : GoStr
  err : Option GoStr
  /-- Backoff slept after this attempt, in seconds (`none` if the loop
  returned at this attempt). -/
  delaySec : Option Nat
deriving DecidableEq, Repr

/-- Result of `SendPromptWithModelAndDir`: the returned pair plus the trace
of attempts. -/
structure ModelRun where
  response : GoStr
  err : Option GoStr
  attempts : List Attempt
deriving DecidableEq, Repr

/-- The error returned when the retry budget is exhausted
(`fmt.Errorf("rate limit exceeded after %d retries: %w", maxRetries, err)`);
a nil wrapped error renders as Go prints it. -/
def rateLimitExceededMsg (underlying : Option GoStr) : GoStr :=
  gs ("rate limit exceeded after 3 retries: ") ++
    (match underlying with
     | some e => e
     | none => gs ("%!w(<nil>)"))

/-- The retry loop of `SendPromptWithModelAndDir` (clients/gemini.go).
`remaining` is the retry budget left (`maxRetries - attempt`), `attempt` the
0-based attempt index, `lastWork` the partial response saved from the
previous rate-limited attempt. -/
def sendModelAux (oracle : ExecOracle) (prompt : GoStr) :
    Nat → Nat → GoStr → ModelRun
  | 0, attempt, lastWork =>
    let promptToUse :=
      if 0 < attempt ∧ !lastWork.isEmpty then buildRetryPrompt prompt lastWork
      else prompt
    let r := oracle attempt
    if isRateLimitError r.1 r.2 then
      { response := r.1, err := some (rateLimitExceededMsg r.2),
        attempts := [⟨attempt, promptToUse, r.1, r.2, none⟩] }
    else
      { response := r.1, err := r.2,
        attempts := [⟨attempt, promptToUse, r.1, r.2, none⟩] }
  | remaining + 1, attempt, lastWork =>
    let promptToUse :=
      if 0 < attempt ∧ !lastWork.isEmpty then buildRetryPrompt prompt lastWork
      else prompt
    let r := oracle attempt
    if isRateLimitError r.1 r.2 then
      let rest := sendModelAux oracle prompt remaining (attempt + 1) r.1
      { response := rest.response, err := rest.err,
        attempts := ⟨attempt, promptToUse, r.1, r.2, some (30 * 2 ^ attempt)⟩ ::
          rest.attempts }
    else
      { response := r.1, err := r.2,
        attempts := [⟨attempt, promptToUse, r.1, r.2, none⟩] }

/-- `SendPromptWithModelAndDir` from clients/gemini.go
(`maxRetries = 3`, backoff `30s * 2^attempt`). -/
def sendPromptWithModelAndDir (oracle : ExecOracle) (prompt : GoStr) : ModelRun :=
  sendModelAux oracle prompt 3 0 []

/-- The model fallback chain of clients/gemini.go. -/
def modelFallbackChain : List GoStr :=
  [gs ("auto-gemini-3"), gs ("gemini-2.5-pro"), gs ("gemini-2.5-flash"),
   gs ("gemini-2.5-flash-lite")]

/-- Result of `SendPromptWithDir`: the returned pair and the models tried,
in order. -/
structure ChainRun where
  response : GoStr
  err : Option GoStr
  modelsTried : List GoStr
deriving DecidableEq, Repr

/-- The fallback loop of `SendPromptWithDir` (clients/gemini.go), over a
given list of models.  `oracle m` is the execution environment seen by
model `m`. -/
def sendChainAux (oracle : GoStr → ExecOracle) (prompt : GoStr) :
    List GoStr → ChainRun
  | [] => { response := [], err := some (gs ("all models exhausted")), modelsTried := [] }
  | m :: ms =>
    let run := sendPromptWithModelAndDir (oracle m) prompt
    match run.err with
    | none => { response := run.response, err := none, modelsTried := [m] }
    | some e =>
      if isRateLimitError run.response (some e) then
        { response := run.response, err := some e, modelsTried := [m] }
      else
        let rest := sendChainAux oracle prompt ms
        { response := rest.response, err := rest.err, modelsTried := m :: rest.modelsTried }

/-- `SendPromptWithDir` from clients/gemini.go. -/
def sendPromptWithDir (oracle : GoStr → ExecOracle) (prompt : GoStr) : ChainRun :=
  sendChainAux oracle prompt modelFallbackChain

/-! ## internal/types/task.go (with the WorktreePath field the orchestrator
uses and the repository README documents) -/

/-- Task status (internal/types/task.go). -/
inductive StatusGo where
  | pending
  | inProgress
  | needsReview
  | completed
deriving DecidableEq, Repr

/-- The human response to a review (internal/types/task.go). -/
structure ReviewResponseGo where
  chosenOptionID : GoStr
  chosenLabel : GoStr
  userNotes : GoStr
  respondedAt : Nat
deriving DecidableEq, Repr

/-- A task record (internal/types/task.go plus the `WorktreePath` field used
throughout internal/orchestrator/orchestrator.go). -/
structure TaskGo where
  id : GoStr
  name : GoStr
  status : StatusGo
  createdAt : Nat
  branchName : GoStr
  worktreePath : GoStr
  workInProgress : GoStr
  review : Option ReviewRequest
  reviewResponse : Option ReviewResponseGo
  responseFile : GoStr
deriving DecidableEq, Repr

/-! ## The polling loop (orchestratorLoop, internal/orchestrator/orchestrator.go)

One iteration of the loop body is modelled as the sequence of admission
events it performs.  A non-blocking semaphore acquisition (`select` with
`default`) is an *attempt*; a successful one is an *admission*. -/

/-- Admission events of one polling iteration. -/
inductive AdmitEvent where
  | attemptResume (id : GoStr)
  | admitResume (id : GoStr)
  | attemptNew (id : GoStr)
  | admitNew (id : GoStr)
deriving DecidableEq, Repr

/-- Eligibility for the first pass: `Status == NeedsReview && ReviewResponse != nil`. -/
def resumeEligible (t : TaskGo) : Bool :=
  t.status = StatusGo.needsReview && t.reviewResponse.isSome

/-- First pass of the loop body: for every resume-eligible task, try to
acquire a semaphore slot; on success spawn the resume coordinator.
Returns the emitted events and the remaining free slots. -/
def passResume : List TaskGo → Nat → List AdmitEvent × Nat
  | [], slots => ([], slots)
  | t :: rest, slots =>
    if resumeEligible t then
      match slots with
      | s + 1 =>
        let r := passResume rest s
        (AdmitEvent.attemptResume t.id :: AdmitEvent.admitResume t.id :: r.1, r.2)
      | 0 =>
        let r := passResume rest 0
        (AdmitEvent.attemptResume t.id :: r.1, r.2)
    else passResume rest slots

/-- Second pass of the loop body: the same for `Status == Pending` tasks. -/
def passNew : List TaskGo → Nat → List AdmitEvent × Nat
  | [], slots => ([], slots)
  | t :: rest, slots =>
    if t.status = StatusGo.pending then
      match slots with
      | s + 1 =>
        let r := passNew rest s
        (AdmitEvent.attemptNew t.id :: AdmitEvent.admitNew t.id :: r.1, r.2)
      | 0 =>
        let r := passNew rest 0
        (AdmitEvent.attemptNew t.id :: r.1, r.2)
    else passNew rest slots

/-- One iteration of the polling loop body (lines 104–133 of
internal/orchestrator/orchestrator.go): first pass over NeedsReview tasks
with responses, then second pass over Pending tasks, sharing one semaphore. -/
def loopIteration (tasks : List TaskGo) (slots : Nat) : List AdmitEvent × Nat :=
  let r1 := passResume tasks slots
  let r2 := passNew tasks r1.2
  (r1.1 ++ r2.1, r2.2)

/-! ## The task coordinators (processNewTask / processResumeTask)

A coordinator is modelled as the sequence of task records it persists via
`taskStore.UpdateTask`, as a function of the outcomes of its external calls.
Persisting always succeeds in this model (the Go code mostly ignores
`UpdateTask` errors); prompt construction, rate limiting and sink writes
do not touch the task record and are not part of the trace. -/

/-- The worktree path allocated by `CreateWorktree`
(`filepath.Join(repoRoot, ".worktrees", taskID)`). -/
def worktreePathOf (repoRoot taskID : GoStr) : GoStr :=
  repoRoot ++ gs ("/.worktrees/") ++ taskID

/-- Environment of one `processNewTask` run: outcomes of branch generation,
worktree creation, response-writer creation and the agent call, plus the
clock used for the review timestamp. -/
structure NewTaskEnv where
  /-- Result of `GenerateBranchName(t.Name)`. -/
  branchGen : Except GoStr GoStr
  /-- `some e` when `CreateWorktree` fails. -/
  createErr : Option GoStr
  repoRoot : GoStr
  /-- Result of `storage.NewResponseWriter(t.ID)`: the relative response path. -/
  respWriter : Except GoStr GoStr
  /-- Result of `aiClient.SendPromptWithDir`: the full response text. -/
  agent : Except GoStr GoStr
  now : Nat

/-- `processNewTask` from internal/orchestrator/orchestrator.go, as the list
of task records it persists, in order. -/
def processNewTask (env : NewTaskEnv) (t : TaskGo) : List TaskGo :=
  match env.branchGen with
  | .error _ => []
  | .ok bn =>
    match env.createErr with
    | some _ => []
    | none =>
      let wp := worktreePathOf env.repoRoot t.id
      let t1 : TaskGo :=
        { t with branchName := bn, worktreePath := wp, status := StatusGo.inProgress }
      match env.respWriter with
      | .error _ => [t1, { t1 with status := StatusGo.pending }]
      | .ok respPath =>
        let t2 : TaskGo := { t1 with responseFile := respPath }
        match env.agent with
        | .error _ => [t1, t2, { t2 with status := StatusGo.pending }]
        | .ok response =>
          let parsed := parseReviewRequest env.now response
          if parsed.2.2 then
            [t1, t2,
             { t2 with status := StatusGo.needsReview,
                       workInProgress := parsed.1, review := parsed.2.1 }]
          else
            let t3 : TaskGo := { t2 with status := StatusGo.completed }
            if t3.worktreePath ≠ [] then
              [t1, t2, t3, { t3 with worktreePath := [] }]
            else [t1, t2, t3]

/-- Environment of one `processResumeTask` run. -/
structure ResumeEnv where
  respWriter : Except GoStr GoStr
  agent : Except GoStr GoStr
  now : Nat

/-- `processResumeTask` from internal/orchestrator/orchestrator.go, as the
list of task records it persists, in order.  (The resume path does not
re-parse the response for a further review block.) -/
def processResumeTask (env : ResumeEnv) (t : TaskGo) : List TaskGo :=
  let t1 : TaskGo := { t with status := StatusGo.inProgress }
  match env.respWriter with
  | .error _ => [t1, { t1 with status := StatusGo.needsReview }]
  | .ok respPath =>
    let t2 : TaskGo := { t1 with responseFile := respPath }
    match env.agent with
    | .error _ => [t1, t2, { t2 with status := StatusGo.needsReview }]
    | .ok _ =>
      let t3 : TaskGo := { t2 with status := StatusGo.completed }
      if t3.worktreePath ≠ [] then
        [t1, t2, t3, { t3 with worktreePath := [] }]
      else [t1, t2, t3]

/-- The worktree-coupling invariant claimed by the spec (§8, property 2):
InProgress tasks have a worktree; Pending and Completed tasks do not. -/
def worktreeCoupling (u : TaskGo) : Prop :=
  (u.status = StatusGo.inProgress → u.worktreePath ≠ []) ∧
  (u.status = StatusGo.pending ∨ u.status = StatusGo.completed → u.worktreePath = [])

instance (u : TaskGo) : Decidable (worktreeCoupling u) := by
  unfold worktreeCoupling; infer_instance

/-! ## internal/storage/taskStorage.go

Mutations are modelled over an explicit disk state, with the file-system
operations they perform emitted as a trace.  The JSON encoding of the task
map is modelled as the map itself (`writeAll` carries it verbatim). -/

/-- The in-memory task map (`map[string]*types.Task`), as an association
list keyed by task id. -/
abbrev TaskMap := List (GoStr × TaskGo)

/-- Map lookup. -/
def mapGet (m : TaskMap) (k : GoStr) : Option TaskGo :=
  (m.find? (fun p => p.1 = k)).map (·.2)

/-- Map insert-or-replace (`m[k] = v`). -/
def mapSet (m : TaskMap) (k : GoStr) (v : TaskGo) : TaskMap :=
  if (m.find? (fun p => p.1 = k)).isSome
  then m.map (fun p => if p.1 = k then (k, v) else p)
  else m ++ [(k, v)]

/-- Map deletion (`delete(m, k)`). -/
def mapDel (m : TaskMap) (k : GoStr) : TaskMap :=
  m.filter (fun p => !(p.1 = k : Bool))

/-- File-system operations performed by the store.  `renameFile` and
`fsyncFile` are included so that the atomic-write contract can be stated;
the store's code never emits them. -/
inductive FsOp where
  | mkdirAll (dir : GoStr)
  | openRead (path : GoStr)
  | openLockFile (path : GoStr)
  /-- `lockFileLock`: a stub that returns nil without locking. -/
  | lockNoOp
  /-- `os.Create`: truncate-or-create the file in place. -/
  | createFile (path : GoStr)
  | writeAll (path : GoStr) (content : TaskMap)
  /-- `lockFileUnlock`: a stub that returns nil. -/
  | unlockNoOp
  | closeFile (path : GoStr)
  | removeFile (path : GoStr)
  | renameFile (src : GoStr) (dst : GoStr)
  | fsyncFile (path : GoStr)
deriving DecidableEq, Repr

/-- State of a `FileTaskStorage`: its file path, the in-memory cache, and
the task file's current content (`none` = the file does not exist). -/
structure StoreState where
  filePath : GoStr
  mem : TaskMap
  disk : Option TaskMap
deriving DecidableEq, Repr

/-- Result of a store operation: the store afterwards, the Go error, and
the file-system trace. -/
structure StoreResult where
  store : StoreState
  err : Option GoStr
  trace : List FsOp
deriving DecidableEq, Repr

/-- `load` (internal/storage/taskStorage.go): replace the cache with the
parsed file; a missing file is `os.ErrNotExist`, which every mutation
tolerates, leaving the cache as it was. -/
def loadGo (s : StoreState) : StoreState × List FsOp :=
  match s.disk with
  | none => (s, [FsOp.openRead s.filePath])
  | some m => ({ s with mem := m }, [FsOp.openRead s.filePath])

/-- `save` (internal/storage/taskStorage.go): create the lock file, take the
no-op lock, `os.Create` the target IN PLACE, encode the whole map into it,
no-op unlock, close both files, remove the lock file.  No temporary file,
no fsync, no rename. -/
def saveGo (s : StoreState) : StoreState × List FsOp :=
  let lockPath := s.filePath ++ gs (".lock")
  ({ s with disk := some s.mem },
   [FsOp.mkdirAll (gs ("~/.ai-orchestrator")), FsOp.openLockFile lockPath,
    FsOp.lockNoOp, FsOp.createFile s.filePath, FsOp.writeAll s.filePath s.mem,
    FsOp.unlockNoOp, FsOp.closeFile s.filePath, FsOp.closeFile lockPath,
    FsOp.removeFile lockPath])

/-- `AddTask`: reload, insert in memory, save. -/
def addTaskGo (s : StoreState) (task : TaskGo) : StoreResult :=
  let l := loadGo s
  let s2 := { l.1 with mem := mapSet l.1.mem task.id task }
  let sv := saveGo s2
  ⟨sv.1, none, l.2 ++ sv.2⟩

/-- `UpdateTask`: reload, replace in memory (error when the id is unknown),
save. -/
def updateTaskGo (s : StoreState) (task : TaskGo) : StoreResult :=
  let l := loadGo s
  if (mapGet l.1.mem task.id).isNone then
    ⟨l.1, some (gs ("task not found")), l.2⟩
  else
    let s2 := { l.1 with mem := mapSet l.1.mem task.id task }
    let sv := saveGo s2
    ⟨sv.1, none, l.2 ++ sv.2⟩

/-- `DeleteTask`: reload, delete in memory (error when the id is unknown),
save. -/
def deleteTaskGo (s : StoreState) (id : GoStr) : StoreResult :=
  let l := loadGo s
  if (mapGet l.1.mem id).isNone then
    ⟨l.1, some (gs ("task not found")), l.2⟩
  else
    let s2 := { l.1 with mem := mapDel l.1.mem id }
    let sv := saveGo s2
    ⟨sv.1, none, l.2 ++ sv.2⟩

/-- The atomic write-out the spec claims: some temporary file distinct from
the target is written and fsynced, then renamed over the target. -/
def atomicReplacePattern (ops : List FsOp) (target : GoStr) : Prop :=
  ∃ tmp content, tmp ≠ target ∧ FsOp.writeAll tmp content ∈ ops ∧
    FsOp.fsyncFile tmp ∈ ops ∧ FsOp.renameFile tmp target ∈ ops

/-! ## internal/storage/streamingWriter.go (the Response Sink) -/

/-- State of a `ResponseWriter`: whether the file handle is still open
(`rw.file != nil`), the bytes written so far, and how many of them have been
synced to disk. -/
structure SinkState where
  taskID : GoStr
  fileOpen : Bool
  content : GoStr
  syncedLen : Nat
deriving DecidableEq, Repr

/-- The *closed-sink* error message
(`"response writer for task %s is closed"`). -/
def closedSinkMsg (taskID : GoStr) : GoStr :=
  gs ("response writer for task ") ++ taskID ++ gs (" is closed")

/-- `WriteChunk` (internal/storage/streamingWriter.go): error and no change
when closed; append the chunk and sync when open. -/
def writeChunkGo (w : SinkState) (chunk : GoStr) : SinkState × Option GoStr :=
  if w.fileOpen = false then (w, some (closedSinkMsg w.taskID))
  else
    let c := w.content ++ chunk
    ({ w with content := c, syncedLen := c.length }, none)

/-- The footer `Close` appends (`"\n\n---\n\nCompleted: <time>\n"`). -/
def sinkFooter (now : Nat) : GoStr :=
  gs ("\n\n---\n\nCompleted: ") ++ natToGoStr now ++ gs ("\n")

/-- `Close` (internal/storage/streamingWriter.go): idempotent; on the first
call appends the footer, syncs and releases the file. -/
def closeSinkGo (w : SinkState) (now : Nat) : SinkState × Option GoStr :=
  if w.fileOpen = false then (w, none)
  else
    let c := w.content ++ sinkFooter now
    ({ w with content := c, syncedLen := c.length, fileOpen := false }, none)

/-- An operation applied to a sink (the per-sink mutex serializes them, so a
history is a sequence). -/
inductive SinkOp where
  | write (chunk : GoStr)
  | close (now : Nat)
deriving DecidableEq, Repr

/-- Apply a sequence of sink operations. -/
def runSinkOps (w : SinkState) : List SinkOp → SinkState
  | [] => w
  | SinkOp.write chunk :: rest => runSinkOps (writeChunkGo w chunk).1 rest
  | SinkOp.close now :: rest => runSinkOps (closeSinkGo w now).1 rest

/-! ## Spec-side descriptions of the review protocol

These are written from the spec's words, independently of the parser's
scanning loops, so that the parser can be compared against them. -/

/-- `marker` occurs in `s` at position `i` AND at least one character
follows it — the only occurrences the parser's strict loops can report. -/
def strictAt (marker s : GoStr) (i : Nat) : Prop :=
  i + marker.length < s.length ∧ marker.isPrefixOf (s.drop i) = true

instance (marker s : GoStr) (i : Nat) : Decidable (strictAt marker s i) := by
  unfold strictAt; infer_instance

/-- `i` is the first strict occurrence of `marker` in `s` at or after
`start`. -/
def firstStrictAt (marker s : GoStr) (start i : Nat) : Prop :=
  start ≤ i ∧ strictAt marker s i ∧
    ∀ j, start ≤ j → j < i → ¬ strictAt marker s j

/-- `marker` occurs somewhere in `s` (ordinary, non-strict containment). -/
def occursIn (marker s : GoStr) : Bool := containsGo s marker

/-- A well-formed option line as the spec writes it:
`- id: <id> | label: <label>`. -/
def optionLine (o : ReviewOption) : GoStr :=
  gs ("- id: ") ++ o.id ++ gs (" | label: ") ++ o.label

/-- The option lines of a review block, one per option, each
newline-terminated. -/
def optLinesOf (opts : List ReviewOption) : GoStr :=
  (opts.map (fun o => optionLine o ++ ['\n'])).flatten

/-- An agent output containing exactly one well-formed review block:
a prefix, the opening sentinel, a `Question:` line, option lines, the
closing sentinel, and a suffix. -/
def mkReviewOutput (pre q : GoStr) (opts : List ReviewOption) (suf : GoStr) :
    GoStr :=
  pre ++ needsReviewMarker ++ ('\n' :: gs ("Question: ")) ++ q ++
    ('\n' :: optLinesOf opts) ++ endReviewMarker ++ suf

/-- The string does not start with one of the four whitespace characters. -/
def headNotSpace (s : GoStr) : Bool :=
  match s.head? with
  | none => true
  | some c => !isSpaceGo c

/-- The string does not end with one of the four whitespace characters. -/
def lastNotSpace (s : GoStr) : Bool :=
  match s.getLast? with
  | none => true
  | some c => !isSpaceGo c

/-- A field (question, option id, option label) that round-trips verbatim:
non-empty, already trimmed (no whitespace at either end), and free of the
newline that ends its line. -/
def cleanField (s : GoStr) : Prop :=
  s ≠ [] ∧ headNotSpace s = true ∧ lastNotSpace s = true ∧ '\n' ∉ s

/-- An option whose two fields are clean and free of the `|` separator. -/
def cleanOption (o : ReviewOption) : Prop :=
  cleanField o.id ∧ ('|' : Char) ∉ o.id ∧ cleanField o.label ∧
    ('|' : Char) ∉ o.label

instance (s : GoStr) : Decidable (cleanField s) := by
  unfold cleanField
  infer_instance

instance (o : ReviewOption) : Decidable (cleanOption o) := by
  unfold cleanOption
  infer_instance

/-- An output whose single well-formed review block ends exactly at the end
of the string (nothing after the closing sentinel). -/
def c3Out : GoStr :=
  mkReviewOutput (gs ("work so far")) (gs ("A or B?"))
    [⟨gs ("a"), gs ("Option A")⟩] []

/-- An output with the opening sentinel, a non-empty `Question:` line, and
the closing sentinel sitting at the very end of the string. -/
def c5Out : GoStr :=
  gs ("---NEEDS_REVIEW---\nQuestion: Proceed?\n---END_REVIEW---")

/-- Sample store used to exercise the task-store mutations. -/
def sampleTask : TaskGo :=
  { id := gs ("t1"), name := gs ("write a hello file"), status := StatusGo.pending,
    createdAt := 0, branchName := [], worktreePath := [], workInProgress := [],
    review := none, reviewResponse := none, responseFile := [] }

/-- `sampleTask` with an updated status, for exercising `UpdateTask`. -/
def sampleTaskDone : TaskGo := { sampleTask with status := StatusGo.completed }

/-- A store whose file currently holds exactly `sampleTask`. -/
def sampleStore : StoreState :=
  { filePath := gs ("tasks.json"), mem := [],
    disk := some [(gs ("t1"), sampleTask)] }

/-- A NeedsReview task carrying a review response (resume-eligible). -/
def sampleResumeTask : TaskGo :=
  { sampleTask with
    status := StatusGo.needsReview,
    reviewResponse := some ⟨gs ("a"), gs ("A"), [], 0⟩ }

/-- A coordinator environment in which everything succeeds up to the agent
call, which fails. -/
def agentErrEnv : NewTaskEnv :=
  { branchGen := .ok (gs ("ludwig/write-hello-file")), createErr := none,
    repoRoot := gs ("/repo"), respWriter := .ok (gs ("responses/t1-1.md")),
    agent := .error (gs ("gemini command exited with error: exit status 1")),
    now := 0 }

/-- A coordinator environment in which everything succeeds and the agent
response contains no review block. -/
def successEnv : NewTaskEnv :=
  { branchGen := .ok (gs ("ludwig/write-hello-file")), createErr := none,
    repoRoot := gs ("/repo"), respWriter := .ok (gs ("responses/t1-1.md")),
    agent := .ok (gs ("created hello.txt\n")), now := 0 }

/-- A NeedsReview task whose worktree is still in place (as a resume input). -/
def sampleWorktreeTask : TaskGo :=
  { sampleTask with
    status := StatusGo.needsReview,
    worktreePath := gs ("/repo/.worktrees/t1") }

/-- A resume environment in which everything succeeds. -/
def sampleResumeEnv : ResumeEnv :=
  { respWriter := .ok (gs ("responses/t1-2.md")), agent := .ok (gs ("done")),
    now := 1 }

/-! # Theorems -/

/-! ## Shared utility lemmas -/

theorem runSinkOps_closed (ops : List SinkOp) :
    ∀ w : SinkState, w.fileOpen = false → runSinkOps w ops = w := by
  induction ops with
  | nil => intro w _; rfl
  | cons op rest ih =>
    intro w hw
    cases op with
    | write chunk =>
      show runSinkOps (writeChunkGo w chunk).1 rest = w
      rw [writeChunkGo, if_pos hw]
      exact ih w hw
    | close now =>
      show runSinkOps (closeSinkGo w now).1 rest = w
      rw [closeSinkGo, if_pos hw]
      exact ih w hw

theorem passResume_no_admitNew (tasks : List TaskGo) :
    ∀ (slots : Nat) (x : GoStr),
      AdmitEvent.admitNew x ∉ (passResume tasks slots).1 := by
  induction tasks with
  | nil => intro slots x h; simp [passResume] at h
  | cons t rest ih =>
    intro slots x h
    cases he : resumeEligible t with
    | true =>
      cases slots with
      | zero =>
        simp only [passResume, he, if_true] at h
        rcases List.mem_cons.mp h with h1 | h1
        · exact AdmitEvent.noConfusion h1
        · exact ih 0 x h1
      | succ s =>
        simp only [passResume, he, if_true] at h
        rcases List.mem_cons.mp h with h1 | h1
        · exact AdmitEvent.noConfusion h1
        rcases List.mem_cons.mp h1 with h2 | h2
        · exact AdmitEvent.noConfusion h2
        · exact ih s x h2
    | false =>
      simp only [passResume, he, Bool.false_eq_true, if_false] at h
      exact ih slots x h

theorem passResume_attempt_mem (tasks : List TaskGo) :
    ∀ (slots : Nat) (t : TaskGo), t ∈ tasks → resumeEligible t = true →
      AdmitEvent.attemptResume t.id ∈ (passResume tasks slots).1 := by
  induction tasks with
  | nil => intro slots t h; exact absurd h (List.not_mem_nil t)
  | cons hd rest ih =>
    intro slots t hmem helig
    rcases List.mem_cons.mp hmem with rfl | hmem
    · simp only [passResume, helig, if_true]
      cases slots with
      | zero => exact List.mem_cons_self _ _
      | succ s => exact List.mem_cons_self _ _
    · cases he : resumeEligible hd with
      | true =>
        simp only [passResume, he, if_true]
        cases slots with
        | zero => exact List.mem_cons_of_mem _ (ih 0 t hmem helig)
        | succ s =>
          exact List.mem_cons_of_mem _ (List.mem_cons_of_mem _ (ih s t hmem helig))
      | false =>
        simp only [passResume, he, Bool.false_eq_true, if_false]
        exact ih slots t hmem helig

/-! ## C8: the Response Sink rejects writes after Close -/

/-- C8: a write on an open sink appends the chunk and syncs it all; a write
on a closed sink fails with the closed-sink error and changes nothing; once
`Close` has run, any further sequence of operations leaves the sink closed,
and a write then still fails with the closed-sink error.  (Serialization by
the per-sink mutex is what justifies modelling histories as sequences.) -/
theorem c8_sink_write_after_close (w : SinkState) (chunk : GoStr) (now : Nat)
    (ops : List SinkOp) :
    (w.fileOpen = true →
      writeChunkGo w chunk =
        ({ w with content := w.content ++ chunk,
                  syncedLen := (w.content ++ chunk).length }, none)) ∧
    (w.fileOpen = false →
      writeChunkGo w chunk = (w, some (closedSinkMsg w.taskID))) ∧
    (runSinkOps (closeSinkGo w now).1 ops).fileOpen = false ∧
    writeChunkGo (runSinkOps (closeSinkGo w now).1 ops) chunk =
      (runSinkOps (closeSinkGo w now).1 ops, some (closedSinkMsg w.taskID)) := by
  have hclosed : (closeSinkGo w now).1.fileOpen = false := by
    by_cases hw : w.fileOpen = false
    · rw [closeSinkGo, if_pos hw]; exact hw
    · rw [closeSinkGo, if_neg hw]
  have hid : (closeSinkGo w now).1.taskID = w.taskID := by
    by_cases hw : w.fileOpen = false
    · rw [closeSinkGo, if_pos hw]
    · rw [closeSinkGo, if_neg hw]
  have hrun : runSinkOps (closeSinkGo w now).1 ops = (closeSinkGo w now).1 :=
    runSinkOps_closed ops _ hclosed
  refine ⟨fun hw => ?_, fun hw => ?_, ?_, ?_⟩
  · rw [writeChunkGo, if_neg (by simp [hw])]
  · rw [writeChunkGo, if_pos hw]
  · rw [hrun]; exact hclosed
  · rw [hrun, writeChunkGo, if_pos hclosed, hid]

/-- C8 witness: a concrete open sink accepts a write; after closing, the
write fails with the closed-sink error and the state is unchanged. -/
theorem c8_sink_write_after_close_witness :
    writeChunkGo ⟨gs ("t1"), true, gs ("ab"), 2⟩ (gs ("cd")) =
      (⟨gs ("t1"), true, gs ("abcd"), 4⟩, none) ∧
    (runSinkOps (closeSinkGo ⟨gs ("t1"), true, gs ("ab"), 2⟩ 7).1
        [SinkOp.write (gs ("x"))]).fileOpen = false ∧
    writeChunkGo (runSinkOps (closeSinkGo ⟨gs ("t1"), true, gs ("ab"), 2⟩ 7).1
        [SinkOp.write (gs ("x"))]) (gs ("cd")) =
      (runSinkOps (closeSinkGo ⟨gs ("t1"), true, gs ("ab"), 2⟩ 7).1
        [SinkOp.write (gs ("x"))], some (closedSinkMsg (gs ("t1")))) := by
  have h := c8_sink_write_after_close ⟨gs ("t1"), true, gs ("ab"), 2⟩ (gs ("cd")) 7
    [SinkOp.write (gs ("x"))]
  refine ⟨?_, h.2.2.1, h.2.2.2⟩
  have h1 := h.1 rfl
  rw [h1]; decide

/-! ## C7: resumes are attempted before new-task admissions -/

/-- C7: in one polling iteration, every task that is resume-eligible at the
start of the iteration has its semaphore-acquisition attempt recorded before
any Pending task is admitted: its `attemptResume` event precedes every
`admitNew` event. -/
theorem c7_resume_attempted_before_new_admission (tasks : List TaskGo)
    (slots : Nat) (t : TaskGo) (hmem : t ∈ tasks)
    (helig : resumeEligible t = true) :
    ∃ i : Nat, (loopIteration tasks slots).1[i]? = some (AdmitEvent.attemptResume t.id) ∧
      ∀ (j : Nat) (x : GoStr), (loopIteration tasks slots).1[j]? = some (AdmitEvent.admitNew x) →
        i < j := by
  have hmem1 : AdmitEvent.attemptResume t.id ∈ (passResume tasks slots).1 :=
    passResume_attempt_mem tasks slots t hmem helig
  obtain ⟨i, hi⟩ := List.mem_iff_getElem?.mp hmem1
  have hilt : i < (passResume tasks slots).1.length := by
    obtain ⟨h1, -⟩ := List.getElem?_eq_some.mp hi
    exact h1
  refine ⟨i, ?_, ?_⟩
  · show ((passResume tasks slots).1 ++ (passNew tasks (passResume tasks slots).2).1)[i]? =
      some (AdmitEvent.attemptResume t.id)
    rw [List.getElem?_append_left hilt]
    exact hi
  · intro j x hj
    by_contra hle
    push_neg at hle
    have hjlt : j < (passResume tasks slots).1.length := lt_of_le_of_lt hle hilt
    have hj2 : (passResume tasks slots).1[j]? = some (AdmitEvent.admitNew x) := by
      have := hj
      rw [show (loopIteration tasks slots).1 =
        (passResume tasks slots).1 ++ (passNew tasks (passResume tasks slots).2).1 from rfl,
        List.getElem?_append_left hjlt] at this
      exact this
    obtain ⟨hlt2, heq⟩ := List.getElem?_eq_some.mp hj2
    have hmem2 := List.getElem_mem hlt2
    rw [heq] at hmem2
    exact passResume_no_admitNew tasks slots x hmem2

/-- C7 witness: a concrete iteration with one resume-eligible and one
Pending task. -/
theorem c7_resume_attempted_before_new_admission_witness :
    ∃ i : Nat, (loopIteration [sampleResumeTask, sampleTask] 3).1[i]? =
        some (AdmitEvent.attemptResume (gs ("t1"))) ∧
      ∀ (j : Nat) (x : GoStr), (loopIteration [sampleResumeTask, sampleTask] 3).1[j]? =
          some (AdmitEvent.admitNew x) → i < j := by
  have h := c7_resume_attempted_before_new_admission
    [sampleResumeTask, sampleTask] 3 sampleResumeTask
    (List.mem_cons_self _ _) (by decide)
  exact h

/-! ## C10: BranchExists swallows git failures -/

theorem genLoop_never_propagates (gitVerify : GoStr → Option GoStr) (base : GoStr) :
    ∀ (fuel : Nat) (bn : GoStr) (counter : Nat) (e : GoStr),
      genLoopGo (branchExistsGo gitVerify) base fuel bn counter ≠
        some (Except.error e) := by
  intro fuel
  induction fuel with
  | zero => intro bn counter e h; exact Option.noConfusion h
  | succ f ih =>
    intro bn counter e h
    cases hgv : gitVerify bn with
    | none =>
      simp only [genLoopGo, branchExistsGo, hgv] at h
      exact ih _ _ e h
    | some msg =>
      simp only [genLoopGo, branchExistsGo, hgv] at h
      exact Except.noConfusion (Option.some.inj h)

/-- C10: `BranchExists` returns a nil error on every outcome of the
underlying `git rev-parse --verify` call — any git failure is reported as
"the branch does not exist".  Consequently the uniqueness loop of
`GenerateBranchName` never fails through the existence check: when git fails
on a candidate, the loop returns that candidate as if it were free, and the
only error `GenerateBranchName` can return is *no-valid-name*. -/
theorem c10_branch_exists_swallows_git_failures
    (gitVerify : GoStr → Option GoStr) (b bn base taskName : GoStr)
    (fuel counter : Nat) :
    (branchExistsGo gitVerify b).2 = none ∧
    ((branchExistsGo gitVerify b).1 = true ↔ gitVerify b = none) ∧
    (∀ e, gitVerify bn = some e →
      genLoopGo (branchExistsGo gitVerify) base (fuel + 1) bn counter =
        some (Except.ok bn)) ∧
    (∀ r, generateBranchName (branchExistsGo gitVerify) fuel taskName = some r →
      ∀ e, r = Except.error e → e = noValidNameMsg taskName) := by
  refine ⟨?_, ?_, ?_, ?_⟩
  · cases hgv : gitVerify b <;> simp [branchExistsGo, hgv]
  · cases hgv : gitVerify b <;> simp [branchExistsGo, hgv]
  · intro e hgv
    simp [genLoopGo, branchExistsGo, hgv]
  · intro r hr e hre
    subst hre
    by_cases hw : (extractWordsGo taskName).length = 0
    · simp only [generateBranchName, hw, if_pos] at hr
      exact (Except.error.inj (Option.some.inj hr)).symm
    · simp only [generateBranchName, if_neg hw] at hr
      exact absurd hr (genLoop_never_propagates gitVerify _ fuel _ 1 e)

/-- C10 witness: with git always failing, `BranchExists` reports (false, nil)
and the loop accepts the base candidate immediately. -/
theorem c10_branch_exists_swallows_git_failures_witness :
    (branchExistsGo (fun _ => some (gs ("fatal: not a git repository")))
      (gs ("ludwig/x"))).2 = none ∧
    genLoopGo (branchExistsGo (fun _ => some (gs ("fatal: not a git repository"))))
      (gs ("ludwig/x")) 1 (gs ("ludwig/x")) 1 = some (Except.ok (gs ("ludwig/x"))) := by
  have h := c10_branch_exists_swallows_git_failures
    (fun _ => some (gs ("fatal: not a git repository")))
    (gs ("ludwig/x")) (gs ("ludwig/x")) (gs ("ludwig/x")) (gs ("task")) 0 1
  exact ⟨h.1, h.2.2.1 (gs ("fatal: not a git repository")) rfl⟩

/-! ## C9: successful runs whose text matches rate-limit signals are
retried and end in a rate-limit error -/

/-- C9: when every subprocess invocation succeeds (`err = nil`) but every
accumulated output is classified by `isRateLimitError` (case-insensitive
`resource has been exhausted` / `429` / `rate limit` / `too many requests`),
the client makes all four attempts (three retries) and returns the
rate-limit-exceeded error, wrapping the nil underlying error, even though no
invocation failed. -/
theorem c9_rate_limit_text_on_success_retries_and_errors
    (oracle : ExecOracle) (prompt : GoStr)
    (hok : ∀ k, k ≤ 3 → (oracle k).2 = none)
    (hrl : ∀ k, k ≤ 3 → isRateLimitError (oracle k).1 none = true) :
    (sendPromptWithModelAndDir oracle prompt).attempts.length = 4 ∧
    (sendPromptWithModelAndDir oracle prompt).err =
      some (rateLimitExceededMsg none) ∧
    ∀ a ∈ (sendPromptWithModelAndDir oracle prompt).attempts, a.err = none := by
  have h0 := hok 0 (by omega)
  have h1 := hok 1 (by omega)
  have h2 := hok 2 (by omega)
  have h3 := hok 3 (by omega)
  have r0 : isRateLimitError (oracle 0).1 (oracle 0).2 = true := by
    rw [h0]; exact hrl 0 (by omega)
  have r1 : isRateLimitError (oracle 1).1 (oracle 1).2 = true := by
    rw [h1]; exact hrl 1 (by omega)
  have r2 : isRateLimitError (oracle 2).1 (oracle 2).2 = true := by
    rw [h2]; exact hrl 2 (by omega)
  have r3 : isRateLimitError (oracle 3).1 (oracle 3).2 = true := by
    rw [h3]; exact hrl 3 (by omega)
  have r3n : isRateLimitError (oracle 3).1 none = true := hrl 3 (by omega)
  refine ⟨?_, ?_, ?_⟩
  · simp [sendPromptWithModelAndDir, sendModelAux, r0, r1, r2, r3]
  · simp [sendPromptWithModelAndDir, sendModelAux, r0, r1, r2, r3, h3, r3n]
  · intro a ha
    simp only [sendPromptWithModelAndDir, sendModelAux, r0, r1, r2, r3,
      if_true, List.mem_cons, List.mem_singleton] at ha
    rcases ha with rfl | rfl | rfl | rfl | h
    · exact h0
    · exact h1
    · exact h2
    · exact h3
    · exact absurd h (List.not_mem_nil a)

/-- C9 witness: a constant successful invocation whose output contains
`429`. -/
theorem c9_rate_limit_text_on_success_retries_and_errors_witness :
    (sendPromptWithModelAndDir (fun _ => (gs ("HTTP 429"), none))
      (gs ("do the task"))).attempts.length = 4 ∧
    (sendPromptWithModelAndDir (fun _ => (gs ("HTTP 429"), none))
      (gs ("do the task"))).err = some (rateLimitExceededMsg none) := by
  have h := c9_rate_limit_text_on_success_retries_and_errors
    (fun _ => (gs ("HTTP 429"), none)) (gs ("do the task"))
    (fun _ _ => rfl)
    (fun k _ => by show isRateLimitError (gs ("HTTP 429")) none = true; decide)
  exact ⟨h.1, h.2.1⟩

/-! ## C6: rate-limit retry policy and model fallback -/

theorem indexOfAux_isSome_of_hasPrefix (sub : GoStr) :
    ∀ (s : GoStr) (i : Nat), hasPrefixGo s sub = true →
      (indexOfAuxGo sub s i).isSome = true := by
  intro s i h
  cases s with
  | nil =>
    have : sub = [] := List.isPrefixOf_iff_prefix.mp h |> List.prefix_nil.mp
    simp [indexOfAuxGo, this]
  | cons c rest => simp [indexOfAuxGo, h]

theorem indexOfAux_isSome_append (sub rest : GoStr)
    (hrest : hasPrefixGo rest sub = true) :
    ∀ (pre : GoStr) (i : Nat), (indexOfAuxGo sub (pre ++ rest) i).isSome = true := by
  intro pre
  induction pre with
  | nil => intro i; exact indexOfAux_isSome_of_hasPrefix sub rest i hrest
  | cons c pre' ih =>
    intro i
    show (indexOfAuxGo sub (c :: (pre' ++ rest)) i).isSome = true
    rw [indexOfAuxGo]
    by_cases h : hasPrefixGo (c :: (pre' ++ rest)) sub = true
    · simp [h]
    · simp only [h]
      simpa using ih (i + 1)

theorem containsGo_of_infix (s sub : GoStr) (h : sub <:+: s) :
    containsGo s sub = true := by
  obtain ⟨pre, post, hsp⟩ := h
  subst hsp
  have : hasPrefixGo (sub ++ post) sub = true :=
    List.isPrefixOf_iff_prefix.mpr (List.prefix_append sub post)
  simpa [containsGo, indexOfGo, List.append_assoc] using
    indexOfAux_isSome_append sub (sub ++ post) this pre 0

/-- A message carrying the rate-limit-exceeded text is itself classified as
a rate limit by `isRateLimitError`. -/
theorem isRateLimitError_of_surface (resp msg : GoStr)
    (h : hasPrefixGo msg (gs ("rate limit exceeded after 3 retries: ")) = true) :
    isRateLimitError resp (some msg) = true := by
  obtain ⟨t, ht⟩ := List.isPrefixOf_iff_prefix.mp h
  have hs : gs ("rate limit") <+: toLowerGo msg := by
    rw [← ht]
    show gs ("rate limit") <+: toLowerGo (gs ("rate limit exceeded after 3 retries: ") ++ t)
    rw [toLowerGo, List.map_append]
    exact List.IsPrefix.trans (by decide) (List.prefix_append _ _)
  have hc : containsGo (toLowerGo msg) (gs ("rate limit")) = true :=
    containsGo_of_infix _ _ hs.isInfix
  simp [isRateLimitError, hc]

theorem sendModelAux_length (oracle : ExecOracle) (prompt : GoStr) :
    ∀ (rem att : Nat) (lw : GoStr),
      (sendModelAux oracle prompt rem att lw).attempts.length ≤ rem + 1 := by
  intro rem
  induction rem with
  | zero =>
    intro att lw
    by_cases h : isRateLimitError (oracle att).1 (oracle att).2 = true <;>
      simp [sendModelAux, h]
  | succ r ih =>
    intro att lw
    by_cases h : isRateLimitError (oracle att).1 (oracle att).2 = true
    · simp only [sendModelAux, h, if_true, List.length_cons]
      have := ih (att + 1) (oracle att).1
      omega
    · simp [sendModelAux, h]

/-- The first attempt of a run: its prompt, response and error. -/
theorem sendModelAux_head (oracle : ExecOracle) (prompt : GoStr) :
    ∀ (rem att : Nat) (lw : GoStr), ∃ a rest2,
      (sendModelAux oracle prompt rem att lw).attempts = a :: rest2 ∧
      a.promptUsed =
        (if 0 < att ∧ !lw.isEmpty then buildRetryPrompt prompt lw else prompt) ∧
      a.response = (oracle att).1 ∧ a.err = (oracle att).2 := by
  intro rem att lw
  cases rem with
  | zero =>
    refine ⟨⟨att, if 0 < att ∧ !lw.isEmpty then buildRetryPrompt prompt lw
      else prompt, (oracle att).1, (oracle att).2, none⟩, [], ?_, rfl, rfl, rfl⟩
    by_cases h : isRateLimitError (oracle att).1 (oracle att).2 = true <;>
      simp [sendModelAux, h]
  | succ r =>
    by_cases h : isRateLimitError (oracle att).1 (oracle att).2 = true
    · refine ⟨⟨att, if 0 < att ∧ !lw.isEmpty then buildRetryPrompt prompt lw
        else prompt, (oracle att).1, (oracle att).2, some (30 * 2 ^ att)⟩,
        (sendModelAux oracle prompt r (att + 1) (oracle att).1).attempts,
        ?_, rfl, rfl, rfl⟩
      simp [sendModelAux, h]
    · refine ⟨⟨att, if 0 < att ∧ !lw.isEmpty then buildRetryPrompt prompt lw
        else prompt, (oracle att).1, (oracle att).2, none⟩, [], ?_, rfl, rfl, rfl⟩
      simp [sendModelAux, h]

/-- Every attempt that was followed by another was rate-limited and slept
`30·2^idx` seconds. -/
theorem sendModelAux_mid (oracle : ExecOracle) (prompt : GoStr) :
    ∀ (rem att : Nat) (lw : GoStr) (k : Nat) (a : Attempt),
      (sendModelAux oracle prompt rem att lw).attempts[k]? = some a →
      k + 1 < (sendModelAux oracle prompt rem att lw).attempts.length →
      isRateLimitError a.response a.err = true ∧
        a.delaySec = some (30 * 2 ^ (att + k)) := by
  intro rem
  induction rem with
  | zero =>
    intro att lw k a hk hlen
    by_cases h : isRateLimitError (oracle att).1 (oracle att).2 = true <;>
      simp [sendModelAux, h] at hlen
  | succ r ih =>
    intro att lw k a hk hlen
    by_cases h : isRateLimitError (oracle att).1 (oracle att).2 = true
    · simp only [sendModelAux, h, if_true] at hk hlen
      cases k with
      | zero =>
        simp only [List.getElem?_cons_zero] at hk
        have := Option.some.inj hk
        subst this
        exact ⟨h, by simp⟩
      | succ k' =>
        simp only [List.getElem?_cons_succ, List.length_cons] at hk hlen
        have hmid := ih (att + 1) (oracle att).1 k' a hk (by omega)
        have harg : att + 1 + k' = att + (k' + 1) := by omega
        rw [← harg]
        exact hmid
    · simp [sendModelAux, h] at hlen

/-- Every retry's prompt is built from the previous attempt's partial
response by `buildRetryPrompt`. -/
theorem sendModelAux_retry_prompt (oracle : ExecOracle) (prompt : GoStr) :
    ∀ (rem att : Nat) (lw : GoStr) (k : Nat) (a b : Attempt),
      (sendModelAux oracle prompt rem att lw).attempts[k]? = some a →
      (sendModelAux oracle prompt rem att lw).attempts[k + 1]? = some b →
      b.promptUsed = buildRetryPrompt prompt a.response := by
  intro rem
  induction rem with
  | zero =>
    intro att lw k a b hk hk1
    by_cases h : isRateLimitError (oracle att).1 (oracle att).2 = true <;>
      simp [sendModelAux, h] at hk1
  | succ r ih =>
    intro att lw k a b hk hk1
    by_cases h : isRateLimitError (oracle att).1 (oracle att).2 = true
    · simp only [sendModelAux, h, if_true] at hk hk1
      cases k with
      | zero =>
        simp only [List.getElem?_cons_zero] at hk
        have ha := Option.some.inj hk
        subst ha
        simp only [List.getElem?_cons_succ] at hk1
        obtain ⟨hb, rest2, heq, hprompt, -, -⟩ :=
          sendModelAux_head oracle prompt r (att + 1) (oracle att).1
        rw [heq] at hk1
        simp only [List.getElem?_cons_zero] at hk1
        have hbb := Option.some.inj hk1
        subst hbb
        rw [hprompt]
        show _ = buildRetryPrompt prompt (oracle att).1
        by_cases he : ((oracle att).1).isEmpty = true
        · rw [if_neg (by simp [he]), buildRetryPrompt, if_pos he]
        · rw [if_pos ⟨Nat.succ_pos att, by simp [he]⟩]
      | succ k' =>
        simp only [List.getElem?_cons_succ] at hk hk1
        exact ih (att + 1) (oracle att).1 k' a b hk hk1
    · simp [sendModelAux, h] at hk1

/-- The rate-limit-exceeded error is surfaced only when every attempt of a
full-length run was rate-limited. -/
theorem sendModelAux_surface (oracle : ExecOracle) (prompt : GoStr) :
    ∀ (rem att : Nat) (lw msg : GoStr),
      (sendModelAux oracle prompt rem att lw).err = some msg →
      hasPrefixGo msg (gs ("rate limit exceeded after 3 retries: ")) = true →
      (sendModelAux oracle prompt rem att lw).attempts.length = rem + 1 ∧
      ∀ a ∈ (sendModelAux oracle prompt rem att lw).attempts,
        isRateLimitError a.response a.err = true := by
  intro rem
  induction rem with
  | zero =>
    intro att lw msg herr hpre
    by_cases h : isRateLimitError (oracle att).1 (oracle att).2 = true
    · refine ⟨by simp [sendModelAux, h], ?_⟩
      intro a ha
      simp only [sendModelAux, h, if_true, List.mem_singleton] at ha
      subst ha
      exact h
    · simp only [sendModelAux, h, Bool.false_eq_true, if_false] at herr
      exact absurd (isRateLimitError_of_surface (oracle att).1 msg hpre)
        (by rw [← herr]; simpa using h)
  | succ r ih =>
    intro att lw msg herr hpre
    by_cases h : isRateLimitError (oracle att).1 (oracle att).2 = true
    · simp only [sendModelAux, h, if_true] at herr ⊢
      have := ih (att + 1) (oracle att).1 msg herr hpre
      refine ⟨by simp [this.1], ?_⟩
      intro a ha
      rcases List.mem_cons.mp ha with rfl | ha
      · exact h
      · exact this.2 a ha
    · simp only [sendModelAux, h, Bool.false_eq_true, if_false] at herr
      exact absurd (isRateLimitError_of_surface (oracle att).1 msg hpre)
        (by rw [← herr]; simpa using h)

/-- C6: the agent client's failure policy.  For any execution environment:
(1) a run makes at most four attempts (three retries);
(2) every attempt that was followed by a retry was classified as a rate
limit and slept the backoff delay 30·2^k seconds (30s, 60s, 120s);
(3) every retry's prompt is the original prompt with the previous partial
output bracketed by the sentinel markers (the original prompt unchanged when
there was no partial output);
(4) the rate-limit-exceeded error is surfaced only after a full run of four
rate-limited attempts;
(5) in the fallback chain, a rate-limit-classified failure returns
immediately without trying the next model, while a non-rate-limit failure
moves on to the next model. -/
theorem c6_rate_limit_retries_no_fallback (oracle : ExecOracle)
    (oracleC : GoStr → ExecOracle) (prompt w m : GoStr) (ms : List GoStr) :
    (sendPromptWithModelAndDir oracle prompt).attempts.length ≤ 4 ∧
    (∀ (k : Nat) (a : Attempt),
      (sendPromptWithModelAndDir oracle prompt).attempts[k]? = some a →
      k + 1 < (sendPromptWithModelAndDir oracle prompt).attempts.length →
      isRateLimitError a.response a.err = true ∧
        a.delaySec = some (30 * 2 ^ k)) ∧
    (∀ (k : Nat) (a b : Attempt),
      (sendPromptWithModelAndDir oracle prompt).attempts[k]? = some a →
      (sendPromptWithModelAndDir oracle prompt).attempts[k + 1]? = some b →
      b.promptUsed = buildRetryPrompt prompt a.response) ∧
    (w ≠ [] → buildRetryPrompt prompt w =
      prompt ++ gs ("\n\n---\n\n[PREVIOUS WORK COMPLETED ON RETRY]:\n") ++ w ++
        gs ("\n[END PREVIOUS WORK]\n\nPlease review the above work. If it appears complete, confirm that and provide a summary. If it\x27s incomplete, continue from where it left off to finish the task.")) ∧
    (∀ msg, (sendPromptWithModelAndDir oracle prompt).err = some msg →
      hasPrefixGo msg (gs ("rate limit exceeded after 3 retries: ")) = true →
      (sendPromptWithModelAndDir oracle prompt).attempts.length = 4 ∧
      ∀ a ∈ (sendPromptWithModelAndDir oracle prompt).attempts,
        isRateLimitError a.response a.err = true) ∧
    (∀ e, (sendPromptWithModelAndDir (oracleC m) prompt).err = some e →
      isRateLimitError (sendPromptWithModelAndDir (oracleC m) prompt).response
        (some e) = true →
      sendChainAux oracleC prompt (m :: ms) =
        ⟨(sendPromptWithModelAndDir (oracleC m) prompt).response, some e, [m]⟩) ∧
    (∀ e, (sendPromptWithModelAndDir (oracleC m) prompt).err = some e →
      isRateLimitError (sendPromptWithModelAndDir (oracleC m) prompt).response
        (some e) = false →
      (sendChainAux oracleC prompt (m :: ms)).modelsTried =
        m :: (sendChainAux oracleC prompt ms).modelsTried) := by
  refine ⟨sendModelAux_length oracle prompt 3 0 [], ?_, ?_, ?_, ?_, ?_, ?_⟩
  · intro k a hk hlen
    have := sendModelAux_mid oracle prompt 3 0 [] k a hk hlen
    simpa using this
  · intro k a b hk hk1
    exact sendModelAux_retry_prompt oracle prompt 3 0 [] k a b hk hk1
  · intro hw
    rw [buildRetryPrompt, if_neg (by simp [hw])]
  · intro msg herr hpre
    exact sendModelAux_surface oracle prompt 3 0 [] msg herr hpre
  · intro e herr hrl
    simp [sendChainAux, herr, hrl]
  · intro e herr hrl
    simp [sendChainAux, herr, hrl]

/-- C6 witness: an environment that rate-limits the first attempt (with a
partial output) and succeeds on the second; and a chain whose first model is
rate-limited. -/
theorem c6_rate_limit_retries_no_fallback_witness :
    (sendPromptWithModelAndDir
        (fun k => if k = 0 then (gs ("partly done, then 429"), none)
          else (gs ("all done"), none)) (gs ("p"))).attempts.length ≤ 4 ∧
    (∃ a b : Attempt,
      (sendPromptWithModelAndDir
        (fun k => if k = 0 then (gs ("partly done, then 429"), none)
          else (gs ("all done"), none)) (gs ("p"))).attempts[0]? = some a ∧
      (sendPromptWithModelAndDir
        (fun k => if k = 0 then (gs ("partly done, then 429"), none)
          else (gs ("all done"), none)) (gs ("p"))).attempts[1]? = some b ∧
      b.promptUsed = buildRetryPrompt (gs ("p")) a.response ∧
      a.delaySec = some 30) ∧
    buildRetryPrompt (gs ("p")) (gs ("w")) =
      gs ("p") ++ gs ("\n\n---\n\n[PREVIOUS WORK COMPLETED ON RETRY]:\n") ++
        gs ("w") ++
        gs ("\n[END PREVIOUS WORK]\n\nPlease review the above work. If it appears complete, confirm that and provide a summary. If it\x27s incomplete, continue from where it left off to finish the task.") ∧
    sendChainAux (fun _ _ => (gs ("quota 429"), some (gs ("boom")))) (gs ("p"))
        [gs ("m1"), gs ("m2")] =
      ⟨(sendPromptWithModelAndDir (fun _ => (gs ("quota 429"), some (gs ("boom"))))
          (gs ("p"))).response,
        (sendPromptWithModelAndDir (fun _ => (gs ("quota 429"), some (gs ("boom"))))
          (gs ("p"))).err.get (by decide), [gs ("m1")]⟩ := by
  have h := c6_rate_limit_retries_no_fallback
    (fun k => if k = 0 then (gs ("partly done, then 429"), none)
      else (gs ("all done"), none))
    (fun _ _ => (gs ("quota 429"), some (gs ("boom"))))
    (gs ("p")) (gs ("w")) (gs ("m1")) [gs ("m2")]
  refine ⟨h.1, ?_, ?_, ?_⟩
  · refine ⟨⟨0, buildRetryPrompt (gs ("p")) [] , gs ("partly done, then 429"),
      none, some 30⟩, ?_⟩
    refine ⟨⟨1, buildRetryPrompt (gs ("p")) (gs ("partly done, then 429")),
      gs ("all done"), none, none⟩, ?_, ?_, ?_, ?_⟩
    · decide
    · decide
    · exact h.2.2.1 0 _ _ (by decide) (by decide)
    · rfl
  · exact h.2.2.2.1 (by decide)
  · have h6 := h.2.2.2.2.2.1
      ((sendPromptWithModelAndDir (fun _ => (gs ("quota 429"), some (gs ("boom"))))
        (gs ("p"))).err.get (by decide)) (by decide) (by decide)
    exact h6

/-! ## C2: task-store mutations and the (absent) atomic write-out -/

/-- No mutation trace of the store contains a rename or an fsync. -/
theorem mutation_traces_no_rename_fsync (s : StoreState) (t : TaskGo)
    (id a b p : GoStr) :
    FsOp.renameFile a b ∉ (addTaskGo s t).trace ∧
    FsOp.renameFile a b ∉ (updateTaskGo s t).trace ∧
    FsOp.renameFile a b ∉ (deleteTaskGo s id).trace ∧
    FsOp.fsyncFile p ∉ (addTaskGo s t).trace ∧
    FsOp.fsyncFile p ∉ (updateTaskGo s t).trace ∧
    FsOp.fsyncFile p ∉ (deleteTaskGo s id).trace := by
  refine ⟨?_, ?_, ?_, ?_, ?_, ?_⟩ <;>
    · simp only [addTaskGo, updateTaskGo, deleteTaskGo, loadGo, saveGo]
      cases s.disk <;> (try split) <;> simp

/-- C2 counterexample: a concrete successful `UpdateTask` whose file-system
trace contains no temporary-file write, no fsync and no rename — the write
is not atomic in the claimed sense. -/
theorem c2_counterexample :
    (updateTaskGo sampleStore sampleTaskDone).err = none ∧
    (updateTaskGo sampleStore sampleTaskDone).store.disk =
      some [(gs ("t1"), sampleTaskDone)] ∧
    ¬ atomicReplacePattern (updateTaskGo sampleStore sampleTaskDone).trace
        sampleStore.filePath := by
  refine ⟨by decide, by decide, ?_⟩
  rintro ⟨tmp, content, -, -, -, hr⟩
  exact (mutation_traces_no_rename_fsync sampleStore sampleTaskDone
    (gs ("t1")) tmp sampleStore.filePath tmp).2.1 hr

/-- C2 amended: every mutation (`AddTask`, `UpdateTask`, `DeleteTask`) does
reload-from-disk, applies the change in memory and writes the whole
collection out — but the write is an in-place truncate-and-rewrite of the
target file (`os.Create` + encode), with no temporary file, no fsync and no
rename; the sidecar lock file is created and removed around the write, but
its lock/unlock operations are unimplemented no-op stubs, so it does not
actually guard concurrent process-level writers.  The result depends only on
the on-disk state, never on the stale in-memory cache. -/
theorem c2_task_store_mutations_amended (s : StoreState) (task : TaskGo)
    (id : GoStr) (m : TaskMap) (hdisk : s.disk = some m) :
    ((addTaskGo s task).err = none ∧
      (addTaskGo s task).store.disk = some (mapSet m task.id task)) ∧
    ((mapGet m task.id).isSome = true →
      (updateTaskGo s task).err = none ∧
      (updateTaskGo s task).store.disk = some (mapSet m task.id task) ∧
      (updateTaskGo s task).trace =
        [FsOp.openRead s.filePath, FsOp.mkdirAll (gs ("~/.ai-orchestrator")),
         FsOp.openLockFile (s.filePath ++ gs (".lock")), FsOp.lockNoOp,
         FsOp.createFile s.filePath,
         FsOp.writeAll s.filePath (mapSet m task.id task), FsOp.unlockNoOp,
         FsOp.closeFile s.filePath, FsOp.closeFile (s.filePath ++ gs (".lock")),
         FsOp.removeFile (s.filePath ++ gs (".lock"))]) ∧
    ((mapGet m id).isSome = true →
      (deleteTaskGo s id).err = none ∧
      (deleteTaskGo s id).store.disk = some (mapDel m id)) ∧
    (∀ a b, FsOp.renameFile a b ∉ (addTaskGo s task).trace ∧
      FsOp.renameFile a b ∉ (updateTaskGo s task).trace ∧
      FsOp.renameFile a b ∉ (deleteTaskGo s id).trace) ∧
    (∀ p, FsOp.fsyncFile p ∉ (addTaskGo s task).trace ∧
      FsOp.fsyncFile p ∉ (updateTaskGo s task).trace ∧
      FsOp.fsyncFile p ∉ (deleteTaskGo s id).trace) := by
  refine ⟨?_, ?_, ?_, ?_, ?_⟩
  · constructor <;> simp [addTaskGo, loadGo, hdisk, saveGo]
  · intro h
    obtain ⟨v, hv⟩ := Option.isSome_iff_exists.mp h
    refine ⟨?_, ?_, ?_⟩ <;> simp [updateTaskGo, loadGo, hdisk, saveGo, hv]
  · intro h
    obtain ⟨v, hv⟩ := Option.isSome_iff_exists.mp h
    constructor <;> simp [deleteTaskGo, loadGo, hdisk, saveGo, hv]
  · intro a b
    have h := mutation_traces_no_rename_fsync s task id a b a
    exact ⟨h.1, h.2.1, h.2.2.1⟩
  · intro p
    have h := mutation_traces_no_rename_fsync s task id p p p
    exact ⟨h.2.2.2.1, h.2.2.2.2.1, h.2.2.2.2.2⟩

/-- C2 amended witness: the concrete store. -/
theorem c2_task_store_mutations_amended_witness :
    (updateTaskGo sampleStore sampleTaskDone).err = none ∧
    (updateTaskGo sampleStore sampleTaskDone).trace =
      [FsOp.openRead sampleStore.filePath,
       FsOp.mkdirAll (gs ("~/.ai-orchestrator")),
       FsOp.openLockFile (sampleStore.filePath ++ gs (".lock")), FsOp.lockNoOp,
       FsOp.createFile sampleStore.filePath,
       FsOp.writeAll sampleStore.filePath
         (mapSet [(gs ("t1"), sampleTask)] sampleTaskDone.id sampleTaskDone),
       FsOp.unlockNoOp, FsOp.closeFile sampleStore.filePath,
       FsOp.closeFile (sampleStore.filePath ++ gs (".lock")),
       FsOp.removeFile (sampleStore.filePath ++ gs (".lock"))] := by
  have h := c2_task_store_mutations_amended sampleStore sampleTaskDone
    (gs ("t1")) [(gs ("t1"), sampleTask)] rfl
  have h2 := h.2.1 (by decide)
  exact ⟨h2.1, h2.2.2⟩

/-! ## C1: the worktree-coupling invariant at persist points -/

theorem worktreePathOf_ne_nil (r i : GoStr) : worktreePathOf r i ≠ [] := by
  intro h
  simp [worktreePathOf, gs] at h

/-- C1 counterexample: with a concrete run in which branch generation,
worktree creation and the response writer succeed but the agent call fails,
`processNewTask` persists the task with `Status = Pending` while
`WorktreePath` is still the created worktree path — the claimed invariant
fails at that persist. -/
theorem c1_counterexample :
    ¬ (∀ u ∈ processNewTask agentErrEnv sampleTask, worktreeCoupling u) ∧
    (∃ u ∈ processNewTask agentErrEnv sampleTask,
      u.status = StatusGo.pending ∧
      u.worktreePath = worktreePathOf (gs ("/repo")) (gs ("t1"))) := by
  constructor
  · decide
  · decide

/-- C1 amended: at every persist of the coordinators,
`Status = InProgress` implies a non-empty `WorktreePath` (for the resume
path, provided the task enters with its worktree still recorded).  The
Pending/Completed half of the claimed invariant does not hold at every
persist: after an agent error the task is persisted as Pending with the
worktree path still recorded (the worktree is left in place), and on the
success path `Status = Completed` is first persisted with the worktree path
still set — only a second persist clears it, so the final persisted state of
a successful run has an empty `WorktreePath`. -/
theorem c1_worktree_coupling_amended (env : NewTaskEnv) (renv : ResumeEnv)
    (t : TaskGo) :
    (∀ u ∈ processNewTask env t,
      u.status = StatusGo.inProgress → u.worktreePath ≠ []) ∧
    (t.worktreePath ≠ [] → ∀ u ∈ processResumeTask renv t,
      u.status = StatusGo.inProgress → u.worktreePath ≠ []) ∧
    (∀ bn p resp, env.branchGen = Except.ok bn → env.createErr = none →
      env.respWriter = Except.ok p → env.agent = Except.ok resp →
      (parseReviewRequest env.now resp).2.2 = false →
      ∃ u1 u2 u3, processNewTask env t =
        [u1, u2, u3, { u3 with worktreePath := [] }] ∧
        u3.status = StatusGo.completed ∧
        u3.worktreePath = worktreePathOf env.repoRoot t.id) ∧
    (∀ bn p e, env.branchGen = Except.ok bn → env.createErr = none →
      env.respWriter = Except.ok p → env.agent = Except.error e →
      ∃ u1 u2, processNewTask env t =
        [u1, u2, { u2 with status := StatusGo.pending }] ∧
        u2.status = StatusGo.inProgress ∧
        u2.worktreePath = worktreePathOf env.repoRoot t.id) := by
  have hwp := worktreePathOf_ne_nil env.repoRoot t.id
  refine ⟨?_, ?_, ?_, ?_⟩
  · intro u hu hst
    obtain ⟨bg, ce, repo, rw, ag, now⟩ := env
    cases bg with
    | error e => simp [processNewTask] at hu
    | ok bn =>
      cases ce with
      | some ce => simp [processNewTask] at hu
      | none =>
        cases rw with
        | error e2 =>
          simp only [processNewTask, List.mem_cons, List.not_mem_nil,
            or_false] at hu
          rcases hu with rfl | rfl <;> simp_all [worktreePathOf_ne_nil]
        | ok p =>
          cases ag with
          | error e3 =>
            simp only [processNewTask, List.mem_cons, List.not_mem_nil,
              or_false] at hu
            rcases hu with rfl | rfl | rfl <;> simp_all [worktreePathOf_ne_nil]
          | ok resp =>
            by_cases hp : (parseReviewRequest now resp).2.2 = true
            · simp only [processNewTask, hp, if_true, List.mem_cons,
                List.not_mem_nil, or_false] at hu
              rcases hu with rfl | rfl | rfl <;>
                simp_all [worktreePathOf_ne_nil]
            · simp only [processNewTask, hp, Bool.false_eq_true, if_false,
                worktreePathOf_ne_nil, ne_eq, not_false_eq_true, if_true,
                List.mem_cons, List.not_mem_nil, or_false] at hu
              rcases hu with rfl | rfl | rfl | rfl <;>
                simp_all [worktreePathOf_ne_nil]
  · intro hwt u hu hst
    obtain ⟨rw, ag, now⟩ := renv
    cases rw with
    | error e2 =>
      simp only [processResumeTask, List.mem_cons, List.not_mem_nil,
        or_false] at hu
      rcases hu with rfl | rfl <;> simp_all
    | ok p =>
      cases ag with
      | error e3 =>
        simp only [processResumeTask, List.mem_cons, List.not_mem_nil,
          or_false] at hu
        rcases hu with rfl | rfl | rfl <;> simp_all
      | ok resp =>
        by_cases hw : t.worktreePath ≠ []
        · simp only [processResumeTask] at hu
          rw [if_pos hw] at hu
          simp only [List.mem_cons, List.not_mem_nil, or_false] at hu
          rcases hu with rfl | rfl | rfl | rfl <;> simp_all
        · exact absurd hwt hw
  · intro bn p resp hbg hce hrw hag hp
    simp only [processNewTask, hbg, hce, hrw, hag, hp, Bool.false_eq_true,
      if_false, worktreePathOf_ne_nil, ne_eq, not_false_eq_true, if_true]
    exact ⟨_, _, _, rfl, rfl, rfl⟩
  · intro bn p e hbg hce hrw hag
    simp only [processNewTask, hbg, hce, hrw, hag]
    exact ⟨_, _, rfl, rfl, rfl⟩

/-- C1 amended witness: the success run persists Completed first with the
worktree path still set and clears it in the final persist; the agent-error
run leaves Pending with the worktree path recorded; a resume run keeps the
invariant for InProgress. -/
theorem c1_worktree_coupling_amended_witness :
    (∃ u1 u2 u3, processNewTask successEnv sampleTask =
        [u1, u2, u3, { u3 with worktreePath := [] }] ∧
      u3.status = StatusGo.completed ∧
      u3.worktreePath = worktreePathOf (gs ("/repo")) (gs ("t1"))) ∧
    (∃ u1 u2, processNewTask agentErrEnv sampleTask =
        [u1, u2, { u2 with status := StatusGo.pending }] ∧
      u2.status = StatusGo.inProgress ∧
      u2.worktreePath = worktreePathOf (gs ("/repo")) (gs ("t1"))) ∧
    (∀ u ∈ processResumeTask sampleResumeEnv sampleWorktreeTask,
      u.status = StatusGo.inProgress → u.worktreePath ≠ []) := by
  refine ⟨?_, ?_, ?_⟩
  · exact (c1_worktree_coupling_amended successEnv sampleResumeEnv
      sampleTask).2.2.1 (gs ("ludwig/write-hello-file"))
      (gs ("responses/t1-1.md")) (gs ("created hello.txt\n"))
      rfl rfl rfl rfl (by decide)
  · exact (c1_worktree_coupling_amended agentErrEnv sampleResumeEnv
      sampleTask).2.2.2 (gs ("ludwig/write-hello-file"))
      (gs ("responses/t1-1.md"))
      (gs ("gemini command exited with error: exit status 1"))
      rfl rfl rfl rfl
  · exact (c1_worktree_coupling_amended successEnv sampleResumeEnv
      sampleWorktreeTask).2.1 (by decide)

/-! ## C4: branch-name generation -/

theorem digitCharGo_inj : ∀ d1 < 10, ∀ d2 < 10,
    digitCharGo d1 = digitCharGo d2 → d1 = d2 := by decide

theorem natDigitsAux_eq : ∀ (fuel n : Nat), n ≤ fuel →
    natDigitsAux fuel n = (Nat.digits 10 n).map digitCharGo := by
  intro fuel
  induction fuel with
  | zero =>
    intro n hn
    interval_cases n
    simp [natDigitsAux]
  | succ f ih =>
    intro n hn
    cases n with
    | zero => simp [natDigitsAux]
    | succ m =>
      rw [natDigitsAux, Nat.digits_def' (by norm_num : (1:ℕ) < 10) (Nat.succ_pos m),
        List.map_cons, ih ((m + 1) / 10) ?_]
      have := Nat.div_lt_self (Nat.succ_pos m) (by norm_num : 1 < 10)
      omega

theorem map_digitCharGo_inj : ∀ (l1 l2 : List Nat),
    (∀ x ∈ l1, x < 10) → (∀ x ∈ l2, x < 10) →
    l1.map digitCharGo = l2.map digitCharGo → l1 = l2 := by
  intro l1
  induction l1 with
  | nil =>
    intro l2 _ _ h
    cases l2 with
    | nil => rfl
    | cons b t => simp at h
  | cons a t ih =>
    intro l2 hb1 hb2 h
    cases l2 with
    | nil => simp at h
    | cons b t2 =>
      simp only [List.map_cons, List.cons.injEq] at h
      have ha := hb1 a (List.mem_cons_self _ _)
      have hbb := hb2 b (List.mem_cons_self _ _)
      have := digitCharGo_inj a ha b hbb h.1
      subst this
      rw [ih t2 (fun x hx => hb1 x (List.mem_cons_of_mem _ hx))
        (fun x hx => hb2 x (List.mem_cons_of_mem _ hx)) h.2]

theorem natToGoStr_inj_pos (m n : Nat) (hm : 0 < m) (hn : 0 < n)
    (h : natToGoStr m = natToGoStr n) : m = n := by
  rw [natToGoStr, natToGoStr, if_neg (by omega), if_neg (by omega),
    natDigitsAux_eq m m le_rfl, natDigitsAux_eq n n le_rfl] at h
  have h2 := List.reverse_injective h
  have h3 := map_digitCharGo_inj (Nat.digits 10 m) (Nat.digits 10 n)
    (fun x hx => Nat.digits_lt_base (by norm_num) hx)
    (fun x hx => Nat.digits_lt_base (by norm_num) hx) h2
  have h4 := congrArg (Nat.ofDigits 10) h3
  rwa [Nat.ofDigits_digits, Nat.ofDigits_digits] at h4

theorem candidateName_inj (base : GoStr) :
    Function.Injective (candidateName base) := by
  intro k j h
  cases k with
  | zero =>
    cases j with
    | zero => rfl
    | succ j' =>
      exfalso
      have := congrArg List.length h
      simp [candidateName] at this
  | succ k' =>
    cases j with
    | zero =>
      exfalso
      have := congrArg List.length h
      simp [candidateName] at this
    | succ j' =>
      simp only [candidateName] at h
      have h2 := List.append_cancel_left h
      have h3 := (List.cons.injEq _ _ _ _).mp h2
      have := natToGoStr_inj_pos (k' + 1) (j' + 1) (Nat.succ_pos k')
        (Nat.succ_pos j') h3.2
      omega

theorem exists_free_candidate (E : List GoStr) (base : GoStr) :
    ∃ k, k ≤ E.length ∧ candidateName base k ∉ E := by
  by_contra hall
  push_neg at hall
  have hsub : (Finset.range (E.length + 1)).image (candidateName base) ⊆
      E.toFinset := by
    intro x hx
    simp only [Finset.mem_image, Finset.mem_range] at hx
    obtain ⟨k, hk, rfl⟩ := hx
    exact List.mem_toFinset.mpr (hall k (by omega))
  have hcard := Finset.card_le_card hsub
  rw [Finset.card_image_of_injective _ (candidateName_inj base),
    Finset.card_range] at hcard
  have := List.toFinset_card_le E
  omega

theorem branchExists_list (E : List GoStr) (bn : GoStr) :
    branchExistsGo (gitVerifyOfList E) bn = (decide (bn ∈ E), none) := by
  by_cases h : bn ∈ E <;> simp [branchExistsGo, gitVerifyOfList, h]

theorem genLoop_step (E : List GoStr) (base bn : GoStr) (f counter : Nat) :
    genLoopGo (branchExistsGo (gitVerifyOfList E)) base (f + 1) bn counter =
      if bn ∈ E then
        genLoopGo (branchExistsGo (gitVerifyOfList E)) base f
          (base ++ '-' :: natToGoStr counter) (counter + 1)
      else some (Except.ok bn) := by
  by_cases h : bn ∈ E <;>
    simp [genLoopGo, branchExists_list, h]

theorem genLoop_finds (E : List GoStr) (base : GoStr) :
    ∀ (fuel m : Nat),
      (∃ k, k < fuel ∧ candidateName base (m + k) ∉ E) →
      ∃ j, j < fuel ∧ candidateName base (m + j) ∉ E ∧
        (∀ i, i < j → candidateName base (m + i) ∈ E) ∧
        genLoopGo (branchExistsGo (gitVerifyOfList E)) base fuel
          (candidateName base m) (m + 1) = some (Except.ok (candidateName base (m + j))) := by
  intro fuel
  induction fuel with
  | zero =>
    intro m h
    obtain ⟨k, hk, -⟩ := h
    omega
  | succ f ih =>
    intro m h
    by_cases hm : candidateName base m ∈ E
    · obtain ⟨k, hk, hfree⟩ := h
      cases k with
      | zero => exact absurd hm (by simpa using hfree)
      | succ k' =>
        have hex : ∃ k, k < f ∧ candidateName base (m + 1 + k) ∉ E :=
          ⟨k', by omega, by
            have : m + 1 + k' = m + (k' + 1) := by omega
            rw [this]; exact hfree⟩
        obtain ⟨j', hj', hfree', hmin', hloop'⟩ := ih (m + 1) hex
        refine ⟨j' + 1, by omega, ?_, ?_, ?_⟩
        · have : m + (j' + 1) = m + 1 + j' := by omega
          rw [this]; exact hfree'
        · intro i hi
          cases i with
          | zero => simpa using hm
          | succ i' =>
            have : m + (i' + 1) = m + 1 + i' := by omega
            rw [this]; exact hmin' i' (by omega)
        · rw [genLoop_step, if_pos hm]
          have hc : base ++ '-' :: natToGoStr (m + 1) = candidateName base (m + 1) := rfl
          rw [hc]
          have : m + (j' + 1) = m + 1 + j' := by omega
          rw [this]
          exact hloop'
    · refine ⟨0, by omega, by simpa using hm, by omega, ?_⟩
      rw [genLoop_step, if_neg hm]
      simp

/-! ### toKebabCase is the identity on the joined lowercase words -/

theorem charOfNat_toNat_small : ∀ n < 128, (Char.ofNat n).toNat = n := by decide

theorem toLowerCharGo_good (c : Char) (h : isAlnumGo c = true) :
    isKebabKeepGo (toLowerCharGo c) = true ∧ toLowerCharGo c ≠ '-' ∧
    toLowerCharGo c ≠ '_' ∧ toLowerCharGo c ≠ ' ' := by
  by_cases hu : 65 ≤ c.toNat ∧ c.toNat ≤ 90
  · rw [toLowerCharGo, if_pos hu]
    have htn : (Char.ofNat (c.toNat + 32)).toNat = c.toNat + 32 :=
      charOfNat_toNat_small _ (by omega)
    refine ⟨?_, ?_, ?_, ?_⟩
    · simp only [isKebabKeepGo, htn, Bool.or_eq_true, Bool.and_eq_true,
        decide_eq_true_eq]
      exact Or.inl (Or.inl (by omega))
    · intro he
      have h2 := congrArg Char.toNat he
      rw [htn, show ('-').toNat = 45 from rfl] at h2
      omega
    · intro he
      have h2 := congrArg Char.toNat he
      rw [htn, show ('_').toNat = 95 from rfl] at h2
      omega
    · intro he
      have h2 := congrArg Char.toNat he
      rw [htn, show (' ').toNat = 32 from rfl] at h2
      omega
  · rw [toLowerCharGo, if_neg hu]
    simp only [isAlnumGo, Bool.or_eq_true, Bool.and_eq_true,
      decide_eq_true_eq] at h
    push_neg at hu
    refine ⟨?_, ?_, ?_, ?_⟩
    · simp only [isKebabKeepGo, Bool.or_eq_true, Bool.and_eq_true,
        decide_eq_true_eq]
      rcases h with (h1 | h1) | h1
      · exact Or.inl (Or.inl (by omega))
      · exact absurd h1.2 (by omega)
      · exact Or.inl (Or.inr (by omega))
    · intro he
      rw [he, show ('-').toNat = 45 from rfl] at h
      omega
    · intro he
      rw [he, show ('_').toNat = 95 from rfl] at h
      omega
    · intro he
      rw [he, show (' ').toNat = 32 from rfl] at h
      omega

theorem splitRunsAux_chars : ∀ (s acc : GoStr) (inSep : Bool),
    (∀ c ∈ acc, isAlnumGo c = true) →
    ∀ piece ∈ splitRunsAux s acc inSep, ∀ c ∈ piece, isAlnumGo c = true := by
  intro s
  induction s with
  | nil =>
    intro acc inSep hacc piece hp c hc
    simp only [splitRunsAux, List.mem_singleton] at hp
    subst hp
    exact hacc c (List.mem_reverse.mp hc)
  | cons d rest ih =>
    intro acc inSep hacc piece hp c hc
    by_cases hd : isAlnumGo d = true
    · rw [splitRunsAux, if_pos hd] at hp
      refine ih (d :: acc) false ?_ piece hp c hc
      intro x hx
      rcases List.mem_cons.mp hx with rfl | hx
      · exact hd
      · exact hacc x hx
    · rw [splitRunsAux, if_neg hd] at hp
      cases inSep with
      | true =>
        rw [if_pos rfl] at hp
        exact ih acc true hacc piece hp c hc
      | false =>
        rw [if_neg (by simp)] at hp
        rcases List.mem_cons.mp hp with rfl | hp
        · exact hacc c (List.mem_reverse.mp hc)
        · exact ih [] true (by simp) piece hp c hc

theorem extractWordsGo_good (tn : GoStr) :
    ∀ w ∈ extractWordsGo tn, w ≠ [] ∧
      ∀ c ∈ w, isKebabKeepGo c = true ∧ c ≠ '-' ∧ c ≠ '_' ∧ c ≠ ' ' := by
  intro w hw
  simp only [extractWordsGo, List.mem_map] at hw
  obtain ⟨part, hpart, rfl⟩ := hw
  rw [List.mem_filter] at hpart
  obtain ⟨hmem, hpred⟩ := hpart
  simp only [Bool.and_eq_true, Bool.not_eq_true', decide_eq_true_eq] at hpred
  constructor
  · simp only [toLowerGo, ne_eq, List.map_eq_nil_iff]
    intro hnil
    rw [hnil] at hpred
    simp at hpred
  · intro c hc
    simp only [toLowerGo, List.mem_map] at hc
    obtain ⟨c0, hc0, rfl⟩ := hc
    exact toLowerCharGo_good c0
      (splitRunsAux_chars tn [] false (by simp) part hmem c0 hc0)

theorem map_id_on (f : Char → Char) (s : GoStr) (h : ∀ c ∈ s, f c = c) :
    s.map f = s := by
  rw [List.map_congr_left (g := id) h, List.map_id]

theorem dropAround_eq_self (p : Char → Bool) (s : GoStr)
    (hh : ∀ c, s.head? = some c → p c = false)
    (hl : ∀ c, s.getLast? = some c → p c = false) :
    ((s.dropWhile p).reverse.dropWhile p).reverse = s := by
  have h1 : s.dropWhile p = s := by
    cases s with
    | nil => rfl
    | cons c t => rw [List.dropWhile_cons, if_neg (by simp [hh c rfl])]
  rw [h1]
  cases hrev : s.reverse with
  | nil =>
    rw [List.reverse_eq_nil_iff.mp hrev]
    rfl
  | cons d r =>
    have hd : s.getLast? = some d := by
      rw [← List.head?_reverse, hrev]
      rfl
    rw [List.dropWhile_cons, if_neg (by simp [hl d hd]), ← hrev,
      List.reverse_reverse]

theorem collapseHyphensGo_eq_self : ∀ s : GoStr,
    List.Chain' (fun a b => ¬(a = '-' ∧ b = '-')) s →
    collapseHyphensGo s = s := by
  intro s
  induction s with
  | nil => intro _; rfl
  | cons c t ih =>
    intro hch
    cases t with
    | nil => rfl
    | cons c2 t2 =>
      rw [List.chain'_cons] at hch
      rw [collapseHyphensGo, if_neg hch.1, ih hch.2]

theorem chain'_no_dash (w : GoStr) (h : ∀ c ∈ w, c ≠ '-') :
    List.Chain' (fun a b => ¬(a = '-' ∧ b = '-')) w := by
  induction w with
  | nil => exact List.chain'_nil
  | cons c t ih =>
    rw [List.chain'_cons']
    refine ⟨fun y _ hab => h c (List.mem_cons_self _ _) hab.1,
      ih fun x hx => h x (List.mem_cons_of_mem _ hx)⟩

theorem joinGo_ne_nil (w : GoStr) (ws : List GoStr) (hw : w ≠ []) :
    joinGo (gs ("-")) (w :: ws) ≠ [] := by
  cases ws with
  | nil => exact hw
  | cons w2 rest => simp [joinGo, hw]

theorem joinGo_head? (w : GoStr) (ws : List GoStr) (hw : w ≠ []) :
    (joinGo (gs ("-")) (w :: ws)).head? = w.head? := by
  cases ws with
  | nil => rfl
  | cons w2 rest =>
    cases w with
    | nil => exact absurd rfl hw
    | cons c t => simp [joinGo]

theorem joinGo_getLast?_mem : ∀ (ws : List GoStr), (∀ w ∈ ws, w ≠ []) →
    ∀ c, (joinGo (gs ("-")) ws).getLast? = some c →
    ∃ w ∈ ws, w.getLast? = some c := by
  intro ws
  induction ws with
  | nil => intro _ c hc; simp [joinGo] at hc
  | cons w rest ih =>
    intro hne c hc
    cases rest with
    | nil => exact ⟨w, List.mem_cons_self _ _, hc⟩
    | cons w2 rest2 =>
      rw [show joinGo (gs ("-")) (w :: w2 :: rest2) =
        w ++ gs ("-") ++ joinGo (gs ("-")) (w2 :: rest2) from rfl,
        List.getLast?_append] at hc
      have hjn : joinGo (gs ("-")) (w2 :: rest2) ≠ [] :=
        joinGo_ne_nil w2 rest2 (hne w2 (by simp))
      cases hj : (joinGo (gs ("-")) (w2 :: rest2)).getLast? with
      | none => exact absurd (List.getLast?_eq_none_iff.mp hj) hjn
      | some d =>
        rw [hj] at hc
        simp only [Option.or] at hc
        obtain ⟨w', hw', hlast⟩ :=
          ih (fun x hx => hne x (List.mem_cons_of_mem _ hx)) d hj
        refine ⟨w', List.mem_cons_of_mem _ hw', ?_⟩
        rw [hlast, hc]

theorem joinGo_chain (ws : List GoStr)
    (h : ∀ w ∈ ws, w ≠ [] ∧ ∀ c ∈ w, c ≠ '-') :
    List.Chain' (fun a b => ¬(a = '-' ∧ b = '-')) (joinGo (gs ("-")) ws) := by
  induction ws with
  | nil => exact List.chain'_nil
  | cons w rest ih =>
    cases rest with
    | nil => exact chain'_no_dash w (h w (by simp)).2
    | cons w2 rest2 =>
      show List.Chain' _ (w ++ gs ("-") ++ joinGo (gs ("-")) (w2 :: rest2))
      rw [List.append_assoc]
      apply List.Chain'.append
      · exact chain'_no_dash w (h w (by simp)).2
      · show List.Chain' _ ('-' :: joinGo (gs ("-")) (w2 :: rest2))
        rw [List.chain'_cons']
        refine ⟨?_, ih fun x hx => h x (List.mem_cons_of_mem _ hx)⟩
        intro y hy hab
        rw [joinGo_head? w2 rest2 (h w2 (by simp)).1] at hy
        exact (h w2 (by simp)).2 y (List.mem_of_mem_head? hy) hab.2
      · intro x hx y _ hab
        exact (h w (by simp)).2 x (List.mem_of_mem_getLast? hx) hab.1

theorem joinGo_chars : ∀ (ws : List GoStr) (c : Char),
    c ∈ joinGo (gs ("-")) ws → c = '-' ∨ ∃ w ∈ ws, c ∈ w := by
  intro ws
  induction ws with
  | nil => intro c hc; simp [joinGo] at hc
  | cons w rest ih =>
    intro c hc
    cases rest with
    | nil => exact Or.inr ⟨w, List.mem_cons_self _ _, hc⟩
    | cons w2 rest2 =>
      rw [show joinGo (gs ("-")) (w :: w2 :: rest2) =
        w ++ gs ("-") ++ joinGo (gs ("-")) (w2 :: rest2) from rfl] at hc
      rcases List.mem_append.mp hc with hc | hc
      · rcases List.mem_append.mp hc with hc | hc
        · exact Or.inr ⟨w, List.mem_cons_self _ _, hc⟩
        · left
          simpa [gs] using hc
      · rcases ih c hc with hc | ⟨w', hw', hcw⟩
        · exact Or.inl hc
        · exact Or.inr ⟨w', List.mem_cons_of_mem _ hw', hcw⟩

theorem toKebabCase_eq_self (s : GoStr)
    (hchars : ∀ c ∈ s, isKebabKeepGo c = true ∧ c ≠ '_' ∧ c ≠ ' ')
    (hchain : List.Chain' (fun a b => ¬(a = '-' ∧ b = '-')) s)
    (hh : ∀ c, s.head? = some c → c ≠ '-')
    (hl : ∀ c, s.getLast? = some c → c ≠ '-') :
    toKebabCase s = s := by
  have e1 : s.map (fun c => if c = '_' then '-' else c) = s :=
    map_id_on _ s fun c hc => if_neg (hchars c hc).2.1
  have e2 : s.map (fun c => if c = ' ' then '-' else c) = s :=
    map_id_on _ s fun c hc => if_neg (hchars c hc).2.2
  have e3 : s.filter isKebabKeepGo = s :=
    List.filter_eq_self.mpr fun c hc => (hchars c hc).1
  have e4 : collapseHyphensGo s = s := collapseHyphensGo_eq_self s hchain
  have e5 : trimCharGo '-' s = s := by
    apply dropAround_eq_self
    · intro c hc
      simp [hh c hc]
    · intro c hc
      simp [hl c hc]
  simp only [toKebabCase]
  rw [e1, e2, e3, e4]
  exact e5

theorem codeBase_eq_specSlug (tn : GoStr) : codeBase tn = specSlug tn := by
  have hgood : ∀ w ∈ (extractWordsGo tn).take 3, w ≠ [] ∧
      ∀ c ∈ w, isKebabKeepGo c = true ∧ c ≠ '-' ∧ c ≠ '_' ∧ c ≠ ' ' :=
    fun w hw => extractWordsGo_good tn w (List.take_subset 3 _ hw)
  have hchain := joinGo_chain ((extractWordsGo tn).take 3)
    (fun w hw => ⟨(hgood w hw).1, fun c hc => ((hgood w hw).2 c hc).2.1⟩)
  have hchars : ∀ c ∈ joinGo (gs ("-")) ((extractWordsGo tn).take 3),
      isKebabKeepGo c = true ∧ c ≠ '_' ∧ c ≠ ' ' := by
    intro c hc
    rcases joinGo_chars _ c hc with rfl | ⟨w, hw, hcw⟩
    · exact ⟨by decide, by decide, by decide⟩
    · exact ⟨((hgood w hw).2 c hcw).1, ((hgood w hw).2 c hcw).2.2.1,
        ((hgood w hw).2 c hcw).2.2.2⟩
  have hh : ∀ c, (joinGo (gs ("-")) ((extractWordsGo tn).take 3)).head? =
      some c → c ≠ '-' := by
    intro c hc
    cases htk : (extractWordsGo tn).take 3 with
    | nil =>
      rw [htk] at hc
      simp [joinGo] at hc
    | cons w rest =>
      have hw : w ∈ (extractWordsGo tn).take 3 := by
        rw [htk]
        exact List.mem_cons_self _ _
      rw [htk, joinGo_head? w rest (hgood w hw).1] at hc
      exact ((hgood w hw).2 c
        (List.mem_of_mem_head? (Option.mem_def.mpr hc))).2.1
  have hl : ∀ c, (joinGo (gs ("-")) ((extractWordsGo tn).take 3)).getLast? =
      some c → c ≠ '-' := by
    intro c hc
    obtain ⟨w, hw, hlast⟩ := joinGo_getLast?_mem _
      (fun w hw => (hgood w hw).1) c hc
    exact ((hgood w hw).2 c
      (List.mem_of_mem_getLast? (Option.mem_def.mpr hlast))).2.1
  have hkeb := toKebabCase_eq_self _ hchars hchain hh hl
  have htake : (extractWordsGo tn).take
      (if (extractWordsGo tn).length < 3 then (extractWordsGo tn).length
       else 3) = (extractWordsGo tn).take 3 := by
    by_cases hlen : (extractWordsGo tn).length < 3
    · rw [if_pos hlen, List.take_length, List.take_of_length_le (by omega)]
    · rw [if_neg hlen]
  simp only [codeBase, specSlug, htake, hkeb]
  by_cases hlen2 : 40 < (joinGo (gs ("-")) ((extractWordsGo tn).take 3)).length
  · rw [if_pos hlen2]
  · rw [if_neg hlen2, List.take_of_length_le
      (show (joinGo (gs ("-")) ((extractWordsGo tn).take 3)).length ≤ 40 by
        omega)]

theorem generateBranchName_eq (check : GoStr → Bool × Option GoStr)
    (fuel : Nat) (tn : GoStr) (h : extractWordsGo tn ≠ []) :
    generateBranchName check fuel tn =
      genLoopGo check (codeBase tn) fuel (codeBase tn) 1 := by
  rw [generateBranchName, if_neg (by simp [List.length_eq_zero, h])]
  rfl

/-- C4: `GenerateBranchName` over a finite set of existing branches.  When no
token of length > 2 survives, it fails with the no-valid-name error.
Otherwise it returns the first non-colliding candidate of the sequence
`slug, slug-1, slug-2, …`, where `slug` is the spec's slug: the first three
surviving tokens (split on non-alphanumeric runs, length ≤ 2 dropped,
lowercased), hyphenated, truncated to 40 characters and prefixed with the
`ludwig/` namespace. -/
theorem c4_generate_branch_name (existing : List GoStr) (taskName : GoStr) :
    (extractWordsGo taskName = [] →
      generateBranchName (branchExistsGo (gitVerifyOfList existing))
        (existing.length + 1) taskName =
        some (Except.error (noValidNameMsg taskName))) ∧
    (extractWordsGo taskName ≠ [] →
      ∃ k, generateBranchName (branchExistsGo (gitVerifyOfList existing))
          (existing.length + 1) taskName =
          some (Except.ok (candidateName (specSlug taskName) k)) ∧
        candidateName (specSlug taskName) k ∉ existing ∧
        ∀ j, j < k → candidateName (specSlug taskName) j ∈ existing) := by
  constructor
  · intro h
    rw [generateBranchName, if_pos (by simp [h])]
  · intro h
    obtain ⟨k0, hk0, hfree0⟩ := exists_free_candidate existing (specSlug taskName)
    obtain ⟨j, hj, hfree, hmin, hloop⟩ :=
      genLoop_finds existing (specSlug taskName) (existing.length + 1) 0
        ⟨k0, by omega, by simpa using hfree0⟩
    refine ⟨j, ?_, by simpa using hfree, fun i hi => by simpa using hmin i hi⟩
    have hloop2 : genLoopGo (branchExistsGo (gitVerifyOfList existing))
        (specSlug taskName) (existing.length + 1) (specSlug taskName) 1 =
        some (Except.ok (candidateName (specSlug taskName) j)) := by
      simpa [candidateName] using hloop
    rw [generateBranchName_eq _ _ _ h, codeBase_eq_specSlug]
    exact hloop2

/-- C4 witness: an empty-token task name fails with no-valid-name; a task
name whose slug collides once gets the `-1` suffix. -/
theorem c4_generate_branch_name_witness :
    generateBranchName (branchExistsGo (gitVerifyOfList [])) 1 (gs ("a ?!")) =
      some (Except.error (noValidNameMsg (gs ("a ?!")))) ∧
    ∃ k, generateBranchName
        (branchExistsGo (gitVerifyOfList [specSlug (gs ("Fix: User login bug"))]))
        2 (gs ("Fix: User login bug")) =
        some (Except.ok (candidateName (specSlug (gs ("Fix: User login bug"))) k)) ∧
      candidateName (specSlug (gs ("Fix: User login bug"))) k ∉
        [specSlug (gs ("Fix: User login bug"))] ∧
      ∀ j, j < k → candidateName (specSlug (gs ("Fix: User login bug"))) j ∈
        [specSlug (gs ("Fix: User login bug"))] := by
  constructor
  · exact (c4_generate_branch_name [] (gs ("a ?!"))).1 (by decide)
  · exact (c4_generate_branch_name [specSlug (gs ("Fix: User login bug"))]
      (gs ("Fix: User login bug"))).2 (by decide)

/-! ## C3/C5: characterization of the strict sentinel scans -/

theorem scanStrict_shift (marker : GoStr) : ∀ (s : GoStr) (off : Nat),
    scanStrict marker s off = (scanStrict marker s 0).map (· + off) := by
  intro s
  induction s with
  | nil => intro off; rfl
  | cons c rest ih =>
    intro off
    by_cases h : marker.length < rest.length + 1 ∧
        marker.isPrefixOf (c :: rest) = true
    · rw [scanStrict, if_pos h, scanStrict, if_pos h]
      simp
    · rw [scanStrict, if_neg h, scanStrict, if_neg h, ih (off + 1), ih 1]
      cases scanStrict marker rest 0 with
      | none => rfl
      | some r =>
        simp only [Option.map_some']
        congr 1
        omega

theorem strictAt_cons_zero (marker : GoStr) (c : Char) (rest : GoStr) :
    strictAt marker (c :: rest) 0 ↔
      marker.length < rest.length + 1 ∧ marker.isPrefixOf (c :: rest) = true := by
  simp [strictAt]

theorem strictAt_cons_succ (marker : GoStr) (c : Char) (rest : GoStr) (j : Nat) :
    strictAt marker (c :: rest) (j + 1) ↔ strictAt marker rest j := by
  simp only [strictAt, List.length_cons, List.drop_succ_cons]
  constructor <;> rintro ⟨h1, h2⟩ <;> exact ⟨by omega, h2⟩

theorem scanStrict_some_iff (marker : GoStr) : ∀ (s : GoStr) (r : Nat),
    scanStrict marker s 0 = some r ↔
      strictAt marker s r ∧ ∀ j, j < r → ¬ strictAt marker s j := by
  intro s
  induction s with
  | nil =>
    intro r
    simp [scanStrict, strictAt]
  | cons c rest ih =>
    intro r
    by_cases h : marker.length < rest.length + 1 ∧
        marker.isPrefixOf (c :: rest) = true
    · rw [scanStrict, if_pos h]
      constructor
      · intro hr
        have : r = 0 := (Option.some.inj hr).symm
        subst this
        exact ⟨(strictAt_cons_zero marker c rest).mpr h, by omega⟩
      · rintro ⟨h1, h2⟩
        cases r with
        | zero => rfl
        | succ r' =>
          exact absurd ((strictAt_cons_zero marker c rest).mpr h)
            (h2 0 (by omega))
    · rw [scanStrict, if_neg h, scanStrict_shift marker rest 1]
      constructor
      · intro hr
        obtain ⟨r', hr', hre⟩ := Option.map_eq_some'.mp hr
        subst hre
        obtain ⟨h1, h2⟩ := (ih r').mp hr'
        refine ⟨(strictAt_cons_succ marker c rest r').mpr h1, ?_⟩
        intro j hj
        cases j with
        | zero =>
          rw [strictAt_cons_zero]
          exact h
        | succ j' =>
          rw [strictAt_cons_succ]
          exact h2 j' (by omega)
      · rintro ⟨h1, h2⟩
        cases r with
        | zero => exact absurd ((strictAt_cons_zero marker c rest).mp h1) h
        | succ r' =>
          have h1' := (strictAt_cons_succ marker c rest r').mp h1
          have h2' : ∀ j, j < r' → ¬ strictAt marker rest j := by
            intro j hj hstr
            exact h2 (j + 1) (by omega)
              ((strictAt_cons_succ marker c rest j).mpr hstr)
          rw [(ih r').mpr ⟨h1', h2'⟩]
          rfl

theorem scanStrict_none_iff (marker : GoStr) : ∀ (s : GoStr),
    scanStrict marker s 0 = none ↔ ∀ j, ¬ strictAt marker s j := by
  intro s
  induction s with
  | nil =>
    simp [scanStrict, strictAt]
  | cons c rest ih =>
    by_cases h : marker.length < rest.length + 1 ∧
        marker.isPrefixOf (c :: rest) = true
    · rw [scanStrict, if_pos h]
      constructor
      · intro hr
        exact absurd hr (by simp)
      · intro hall
        exact absurd ((strictAt_cons_zero marker c rest).mpr h) (hall 0)
    · rw [scanStrict, if_neg h, scanStrict_shift marker rest 1]
      constructor
      · intro hr j
        have hn : scanStrict marker rest 0 = none := by
          cases hs : scanStrict marker rest 0 with
          | none => rfl
          | some r => rw [hs] at hr; simp at hr
        cases j with
        | zero =>
          rw [strictAt_cons_zero]
          exact h
        | succ j' =>
          rw [strictAt_cons_succ]
          exact (ih.mp hn) j'
      · intro hall
        have : ∀ j, ¬ strictAt marker rest j := by
          intro j
          intro hstr
          exact hall (j + 1) ((strictAt_cons_succ marker c rest j).mpr hstr)
        rw [ih.mpr this]
        rfl

theorem strictAt_drop (marker s : GoStr) (start i : Nat) :
    strictAt marker (s.drop start) i ↔ strictAt marker s (start + i) := by
  simp only [strictAt, List.length_drop, List.drop_drop]
  constructor <;> rintro ⟨h1, h2⟩ <;> exact ⟨by omega, h2⟩

theorem findStrictFrom_some_iff (marker s : GoStr) (start r : Nat) :
    findStrictFrom marker s start = some r ↔
      firstStrictAt marker s start r := by
  rw [findStrictFrom]
  constructor
  · intro h
    obtain ⟨i, hi, hie⟩ := Option.map_eq_some'.mp h
    subst hie
    obtain ⟨h1, h2⟩ := (scanStrict_some_iff marker (s.drop start) i).mp hi
    have h1' := (strictAt_drop marker s start i).mp h1
    rw [Nat.add_comm start i] at h1'
    refine ⟨by omega, h1', ?_⟩
    intro j hj1 hj2 hstr
    have : strictAt marker (s.drop start) (j - start) := by
      rw [strictAt_drop]
      rwa [show start + (j - start) = j by omega]
    exact h2 (j - start) (by omega) this
  · rintro ⟨h0, h1, h2⟩
    have hi : scanStrict marker (s.drop start) 0 = some (r - start) := by
      rw [scanStrict_some_iff]
      refine ⟨?_, ?_⟩
      · rw [strictAt_drop]
        rwa [show start + (r - start) = r by omega]
      · intro j hj hstr
        rw [strictAt_drop] at hstr
        exact h2 (start + j) (by omega) (by omega) hstr
    rw [hi]
    simp only [Option.map_some']
    congr 1
    omega

theorem findStrictFrom_none_iff (marker s : GoStr) (start : Nat) :
    findStrictFrom marker s start = none ↔
      ∀ j, start ≤ j → ¬ strictAt marker s j := by
  rw [findStrictFrom]
  constructor
  · intro h j hj hstr
    have hn : scanStrict marker (s.drop start) 0 = none := by
      cases hs : scanStrict marker (s.drop start) 0 with
      | none => rfl
      | some r => rw [hs] at h; simp at h
    have := (scanStrict_none_iff marker (s.drop start)).mp hn (j - start)
    rw [strictAt_drop, show start + (j - start) = j by omega] at this
    exact this hstr
  · intro hall
    have : ∀ j, ¬ strictAt marker (s.drop start) j := by
      intro j hstr
      rw [strictAt_drop] at hstr
      exact hall (start + j) (by omega) hstr
    rw [(scanStrict_none_iff marker (s.drop start)).mpr this]
    rfl

theorem findStrict_eq (marker s : GoStr) :
    findStrict marker s = findStrictFrom marker s 0 := by
  rw [findStrict, findStrictFrom, List.drop_zero]
  cases scanStrict marker s 0 <;> simp

theorem firstStrictAt_unique (marker s : GoStr) (start i i' : Nat)
    (h1 : firstStrictAt marker s start i) (h2 : firstStrictAt marker s start i') :
    i = i' := by
  rcases Nat.lt_trichotomy i i' with h | h | h
  · exact absurd h1.2.1 (h2.2.2 i h1.1 h)
  · exact h
  · exact absurd h2.2.1 (h1.2.2 i' h2.1 h)

/-! ## C5: when parseReviewRequest yields no review -/

/-- C5 counterexample: an output that DOES contain the opening sentinel, a
closing sentinel after it, and a non-empty `Question:` line, yet yields no
review — because the closing sentinel sits at the very end of the string and
the strict scan cannot report it.  This refutes the claimed "exactly these
cases" characterization. -/
theorem c5_counterexample :
    needsReviewMarker.isPrefixOf (c5Out.drop 0) = true ∧
    endReviewMarker.isPrefixOf (c5Out.drop 38) = true ∧
    (∃ line ∈ splitCharGo '\n' c5Out,
      hasPrefixGo line (gs ("Question:")) = true ∧
      trimGo (trimPrefixGo line (gs ("Question:"))) ≠ []) ∧
    (parseReviewRequest 0 c5Out).2.2 = false ∧
    (parseReviewRequest 0 c5Out).2.1 = none := by
  refine ⟨by decide, by decide, ?_, by decide, by decide⟩
  exact ⟨gs ("Question: Proceed?"), by decide, by decide, by decide⟩

/-- C5 amended: `parseReviewRequest` yields no review exactly when: the
opening sentinel has no occurrence with at least one character after it; or
(with `i` the first such opening occurrence) the closing sentinel has no
occurrence at or after `i + 18` with at least one character after it; or
(with `j` the first such closing occurrence) the block between the sentinels
parses to no review (no `Question:` line with non-empty content — the last
`Question:` line wins). -/
theorem c5_no_review_cases_amended (now : Nat) (out : GoStr) :
    (parseReviewRequest now out).2.2 = false ↔
      ((∀ i, ¬ strictAt needsReviewMarker out i) ∨
       (∃ i, firstStrictAt needsReviewMarker out 0 i ∧
         ∀ j, i + 18 ≤ j → ¬ strictAt endReviewMarker out j) ∨
       (∃ i j, firstStrictAt needsReviewMarker out 0 i ∧
         firstStrictAt endReviewMarker out (i + 18) j ∧
         parseReviewBlock now ((out.take j).drop (i + 18)) = none)) := by
  have h18 : needsReviewMarker.length = 18 := rfl
  cases hfo : findStrict needsReviewMarker out with
  | none =>
    have hres : parseReviewRequest now out = ([], none, false) := by
      simp only [parseReviewRequest, hfo]
    have hfo2 := (findStrictFrom_none_iff needsReviewMarker out 0).mp
      (by rwa [← findStrict_eq])
    rw [hres]
    exact ⟨fun _ => Or.inl (fun i => hfo2 i (by omega)), fun _ => rfl⟩
  | some i =>
    have hfo2 := (findStrictFrom_some_iff needsReviewMarker out 0 i).mp
      (by rwa [← findStrict_eq])
    cases hfc : findStrictFrom endReviewMarker out (i + 18) with
    | none =>
      have hfc2 := (findStrictFrom_none_iff endReviewMarker out (i + 18)).mp hfc
      have hres : (parseReviewRequest now out).2.2 = false := by
        simp only [parseReviewRequest, hfo]
        rw [h18, hfc]
      rw [hres]
      constructor
      · intro _
        exact Or.inr (Or.inl ⟨i, hfo2, hfc2⟩)
      · intro _
        rfl
    | some j =>
      have hfc2 := (findStrictFrom_some_iff endReviewMarker out (i + 18) j).mp hfc
      have hres : (parseReviewRequest now out).2.2 =
          (parseReviewBlock now ((out.take j).drop (i + 18))).isSome := by
        simp only [parseReviewRequest, hfo]
        rw [h18, hfc]
      rw [hres]
      constructor
      · intro hfalse
        refine Or.inr (Or.inr ⟨i, j, hfo2, hfc2, ?_⟩)
        cases hpb : parseReviewBlock now ((out.take j).drop (i + 18)) with
        | none => rfl
        | some rv =>
          rw [hpb] at hfalse
          simp at hfalse
      · rintro (hall | ⟨i', hi', hclose⟩ | ⟨i', j', hi', hj', hnone⟩)
        · exact absurd hfo2.2.1 (hall i)
        · have hii : i' = i :=
            firstStrictAt_unique needsReviewMarker out 0 i' i hi' hfo2
          subst hii
          exact absurd hfc2.2.1 (hclose j hfc2.1)
        · have hii : i' = i :=
            firstStrictAt_unique needsReviewMarker out 0 i' i hi' hfo2
          subst hii
          have hjj : j' = j :=
            firstStrictAt_unique endReviewMarker out (i' + 18) j' j hj' hfc2
          subst hjj
          rw [hnone]
          rfl

/-! ## C3: round-trip of a single well-formed review block — string helpers -/

theorem getLast?_append_right (xs ys : GoStr) (h : ys ≠ []) :
    (xs ++ ys).getLast? = ys.getLast? := by
  rw [List.getLast?_append]
  obtain ⟨y, hy⟩ := Option.isSome_iff_exists.mp (List.getLast?_isSome.mpr h)
  rw [hy]
  rfl

theorem headNotSpace_append (xs ys : GoStr) (h : xs ≠ []) :
    headNotSpace (xs ++ ys) = headNotSpace xs := by
  cases xs with
  | nil => exact absurd rfl h
  | cons c t => rfl

theorem lastNotSpace_append (xs ys : GoStr) (h : ys ≠ []) :
    lastNotSpace (xs ++ ys) = lastNotSpace ys := by
  rw [lastNotSpace, lastNotSpace, getLast?_append_right xs ys h]

theorem trimGo_eq_self (s : GoStr) (hh : headNotSpace s = true)
    (hl : lastNotSpace s = true) : trimGo s = s := by
  show ((s.dropWhile isSpaceGo).reverse.dropWhile isSpaceGo).reverse = s
  apply dropAround_eq_self
  · intro c hc
    simp only [headNotSpace, hc] at hh
    simpa using hh
  · intro c hc
    simp only [lastNotSpace, hc] at hl
    simpa using hl

theorem trimGo_clean (s : GoStr) (h : cleanField s) : trimGo s = s :=
  trimGo_eq_self s h.2.1 h.2.2.1

theorem trimGo_cons_space (c : Char) (s : GoStr) (h : isSpaceGo c = true) :
    trimGo (c :: s) = trimGo s := by
  simp [trimGo, List.dropWhile_cons, h]

theorem trimGo_append_space (s : GoStr) (c : Char) (h : isSpaceGo c = true) :
    trimGo (s ++ [c]) = trimGo s := by
  rw [trimGo, trimGo, List.dropWhile_append]
  by_cases he : (s.dropWhile isSpaceGo).isEmpty = true
  · rw [if_pos he]
    have he2 : s.dropWhile isSpaceGo = [] := List.isEmpty_iff.mp he
    rw [he2]
    simp [List.dropWhile_cons, h]
  · rw [if_neg he, List.reverse_append]
    show ((List.reverse [c] ++ (s.dropWhile isSpaceGo).reverse).dropWhile
      isSpaceGo).reverse = _
    rw [show List.reverse [c] = [c] from rfl, List.singleton_append,
      List.dropWhile_cons, if_pos h]

theorem hasPrefixGo_append (p s : GoStr) : hasPrefixGo (p ++ s) p = true := by
  rw [hasPrefixGo, List.isPrefixOf_iff_prefix]
  exact List.prefix_append p s

theorem hasPrefixGo_head_ne (s p : GoStr) (c d : Char) (hs : s.head? = some c)
    (hp : p.head? = some d) (h : d ≠ c) : hasPrefixGo s p = false := by
  cases s with
  | nil => simp at hs
  | cons c0 s0 =>
    cases p with
    | nil => simp at hp
    | cons d0 p0 =>
      simp only [List.head?_cons, Option.some.injEq] at hs hp
      subst hs
      subst hp
      rw [hasPrefixGo, Bool.eq_false_iff]
      intro hcontra
      rw [List.isPrefixOf_iff_prefix] at hcontra
      exact h (List.cons_prefix_cons.mp hcontra).1

theorem splitChar_no_sep (sep : Char) (xs : GoStr) (h : sep ∉ xs) :
    splitCharGo sep xs = [xs] := by
  induction xs with
  | nil => rfl
  | cons c t ih =>
    have hc : c ≠ sep := fun hcs => h (hcs ▸ List.mem_cons_self c t)
    have ht : sep ∉ t := fun hm => h (List.mem_cons_of_mem c hm)
    simp only [splitCharGo, if_neg hc, ih ht]

theorem splitChar_append (sep : Char) (xs ys : GoStr) (h : sep ∉ xs) :
    splitCharGo sep (xs ++ sep :: ys) = xs :: splitCharGo sep ys := by
  induction xs with
  | nil =>
    show splitCharGo sep (sep :: ys) = [] :: splitCharGo sep ys
    simp [splitCharGo]
  | cons c t ih =>
    have hc : c ≠ sep := fun hcs => h (hcs ▸ List.mem_cons_self c t)
    have ht : sep ∉ t := fun hm => h (List.mem_cons_of_mem c hm)
    show splitCharGo sep (c :: (t ++ sep :: ys)) = (c :: t) :: splitCharGo sep ys
    simp only [splitCharGo, if_neg hc, ih ht]

/-! ## C3: parsing the lines of a well-formed block -/

theorem splitChar_cons_sep (sep : Char) (ys : GoStr) :
    splitCharGo sep (sep :: ys) = [] :: splitCharGo sep ys := by
  simp [splitCharGo]

theorem optionLine_norm (o : ReviewOption) :
    optionLine o =
      gs ("- id:") ++ (' ' :: (o.id ++ (gs (" | label: ") ++ o.label))) := by
  rw [optionLine, show gs ("- id: ") = gs ("- id:") ++ [' '] from rfl]
  simp [List.append_assoc]

theorem splitChar_optLines (opts : List ReviewOption)
    (hopts : ∀ o ∈ opts, cleanOption o) :
    splitCharGo '\n' (optLinesOf opts) = opts.map optionLine ++ [[]] := by
  induction opts with
  | nil => rfl
  | cons o rest ih =>
    have hc := hopts o (List.mem_cons_self o rest)
    have hno : '\n' ∉ optionLine o := by
      rw [optionLine]
      intro hm
      rcases List.mem_append.mp hm with hm1 | hm1
      · rcases List.mem_append.mp hm1 with hm2 | hm2
        · rcases List.mem_append.mp hm2 with hm3 | hm3
          · exact absurd hm3 (by decide)
          · exact hc.1.2.2.2 hm3
        · exact absurd hm2 (by decide)
      · exact hc.2.2.1.2.2.2 hm1
    show splitCharGo '\n' ((optionLine o ++ ['\n']) ++ optLinesOf rest) = _
    rw [List.append_assoc, List.singleton_append,
      splitChar_append '\n' _ _ hno,
      ih (fun o' h' => hopts o' (List.mem_cons_of_mem o h'))]
    rfl

theorem parseOption_roundtrip (o : ReviewOption) (hc : cleanOption o) :
    parseOption (optionLine o) = some o := by
  obtain ⟨oid, olab⟩ := o
  have hid_ne : oid ≠ [] := hc.1.1
  have hlab_ne : olab ≠ [] := hc.2.2.1.1
  have hBl : gs (" | label: ") ++ olab ≠ [] := by
    intro hx
    exact hlab_ne (List.append_eq_nil.mp hx).2
  have hpfx : hasPrefixGo (optionLine ⟨oid, olab⟩) (gs ("- id:")) = true := by
    rw [optionLine_norm]
    exact hasPrefixGo_append _ _
  have hRX : trimGo (oid ++ (gs (" | label: ") ++ olab)) =
      oid ++ (gs (" | label: ") ++ olab) := by
    apply trimGo_eq_self
    · rw [headNotSpace_append _ _ hid_ne]
      exact hc.1.2.1
    · rw [lastNotSpace_append oid (gs (" | label: ") ++ olab) hBl,
        lastNotSpace_append (gs (" | label: ")) olab hlab_ne]
      exact hc.2.2.1.2.2.1
  have hR : trimGo (trimPrefixGo (optionLine ⟨oid, olab⟩) (gs ("- id:"))) =
      oid ++ (gs (" | label: ") ++ olab) := by
    rw [trimPrefixGo, if_pos hpfx, optionLine_norm, List.drop_left,
      trimGo_cons_space ' ' _ (by decide)]
    exact hRX
  have hsep1 : ('|' : Char) ∉ oid ++ [' '] := by
    intro hm
    rcases List.mem_append.mp hm with hm | hm
    · exact hc.2.1 hm
    · simp at hm
  have hsep2 : ('|' : Char) ∉ gs (" label: ") ++ olab := by
    intro hm
    rcases List.mem_append.mp hm with hm | hm
    · exact absurd hm (by decide)
    · exact hc.2.2.2 hm
  have hre : oid ++ (gs (" | label: ") ++ olab) =
      (oid ++ [' ']) ++ ('|' :: (gs (" label: ") ++ olab)) := by
    rw [List.append_assoc]
    rfl
  have hsplit : splitCharGo '|' (oid ++ (gs (" | label: ") ++ olab)) =
      [oid ++ [' '], gs (" label: ") ++ olab] := by
    rw [hre, splitChar_append '|' (oid ++ [' ']) _ hsep1,
      splitChar_no_sep '|' _ hsep2]
  have htrim_p0 : trimGo (oid ++ [' ']) = oid := by
    rw [trimGo_append_space oid ' ' (by decide)]
    exact trimGo_clean oid hc.1
  have htrim_p1 : trimGo (gs (" label: ") ++ olab) = gs ("label: ") ++ olab := by
    show trimGo (' ' :: (gs ("label: ") ++ olab)) = _
    rw [trimGo_cons_space _ _ (by decide)]
    apply trimGo_eq_self
    · rw [headNotSpace_append (gs ("label: ")) olab (by decide)]
      decide
    · rw [lastNotSpace_append (gs ("label: ")) olab hlab_ne]
      exact hc.2.2.1.2.2.1
  have hpfx2 : hasPrefixGo (gs ("label: ") ++ olab) (gs ("label:")) = true := by
    rw [show gs ("label: ") = gs ("label:") ++ [' '] from rfl, List.append_assoc]
    exact hasPrefixGo_append _ _
  have hlabel : trimGo (trimPrefixGo (gs ("label: ") ++ olab) (gs ("label:"))) =
      olab := by
    rw [trimPrefixGo, if_pos hpfx2,
      show gs ("label: ") = gs ("label:") ++ [' '] from rfl, List.append_assoc,
      List.drop_left, show [' '] ++ olab = ' ' :: olab from rfl,
      trimGo_cons_space _ _ (by decide)]
    exact trimGo_clean olab hc.2.2.1
  simp [parseOption, hpfx, hR, hsplit, htrim_p0, htrim_p1, hpfx2, hlabel]

theorem reviewLineStep_nil (st : GoStr × GoStr × List ReviewOption) :
    reviewLineStep st [] = st := rfl

theorem reviewLineStep_question (st : GoStr × GoStr × List ReviewOption)
    (q : GoStr) (hq : cleanField q) :
    reviewLineStep st (gs ("Question: ") ++ q) = (q, st.2.1, st.2.2) := by
  have hline : trimGo (gs ("Question: ") ++ q) = gs ("Question: ") ++ q := by
    apply trimGo_eq_self
    · rw [headNotSpace_append (gs ("Question: ")) q (by decide)]
      decide
    · rw [lastNotSpace_append (gs ("Question: ")) q hq.1]
      exact hq.2.2.1
  have hpfx : hasPrefixGo (gs ("Question: ") ++ q) (gs ("Question:")) = true := by
    rw [show gs ("Question: ") = gs ("Question:") ++ [' '] from rfl,
      List.append_assoc]
    exact hasPrefixGo_append _ _
  have hstrip :
      trimGo (trimPrefixGo (gs ("Question: ") ++ q) (gs ("Question:"))) = q := by
    rw [trimPrefixGo, if_pos hpfx,
      show gs ("Question: ") = gs ("Question:") ++ [' '] from rfl,
      List.append_assoc, List.drop_left,
      show [' '] ++ q = ' ' :: q from rfl,
      trimGo_cons_space _ _ (by decide)]
    exact trimGo_clean q hq
  simp [reviewLineStep, hline, hpfx, hstrip]

theorem reviewLineStep_option (st : GoStr × GoStr × List ReviewOption)
    (o : ReviewOption) (hc : cleanOption o) :
    reviewLineStep st (optionLine o) = (st.1, st.2.1, st.2.2 ++ [o]) := by
  have hlab_ne : o.label ≠ [] := hc.2.2.1.1
  have h1 : (gs ("- id: ") ++ o.id) ++ gs (" | label: ") ≠ [] := by
    intro hx
    exact absurd (List.append_eq_nil.mp hx).2 (by decide)
  have h2 : gs ("- id: ") ++ o.id ≠ [] := by
    intro hx
    exact absurd (List.append_eq_nil.mp hx).1 (by decide)
  have hline : trimGo (optionLine o) = optionLine o := by
    apply trimGo_eq_self
    · rw [optionLine, headNotSpace_append _ _ h1, headNotSpace_append _ _ h2,
        headNotSpace_append (gs ("- id: ")) o.id (by decide)]
      decide
    · rw [optionLine, lastNotSpace_append _ _ hlab_ne]
      exact hc.2.2.1.2.2.1
  have hq_false : hasPrefixGo (optionLine o) (gs ("Question:")) = false :=
    hasPrefixGo_head_ne (optionLine o) (gs ("Question:")) '-' 'Q' rfl rfl
      (by decide)
  have hc_false : hasPrefixGo (optionLine o) (gs ("Context:")) = false :=
    hasPrefixGo_head_ne (optionLine o) (gs ("Context:")) '-' 'C' rfl rfl
      (by decide)
  have hid_true : hasPrefixGo (optionLine o) (gs ("- id:")) = true := by
    rw [optionLine_norm]
    exact hasPrefixGo_append _ _
  simp [reviewLineStep, hline, hq_false, hc_false, hid_true,
    parseOption_roundtrip o hc]

theorem foldl_option_lines (opts : List ReviewOption)
    (hopts : ∀ o ∈ opts, cleanOption o) (a c : GoStr)
    (acc : List ReviewOption) :
    (opts.map optionLine).foldl reviewLineStep (a, c, acc) =
      (a, c, acc ++ opts) := by
  induction opts generalizing acc with
  | nil => simp
  | cons o rest ih =>
    rw [List.map_cons, List.foldl_cons,
      reviewLineStep_option (a, c, acc) o (hopts o (List.mem_cons_self o rest))]
    show (rest.map optionLine).foldl reviewLineStep (a, c, acc ++ [o]) =
      (a, c, acc ++ o :: rest)
    rw [ih (fun o' h' => hopts o' (List.mem_cons_of_mem o h'))]
    simp

theorem parseReviewBlock_mk (now : Nat) (q : GoStr) (opts : List ReviewOption)
    (hq : cleanField q) (hopts : ∀ o ∈ opts, cleanOption o) :
    parseReviewBlock now
      ((('\n' :: gs ("Question: ")) ++ q) ++ ('\n' :: optLinesOf opts)) =
      some ⟨q, opts, [], now⟩ := by
  have hnq : '\n' ∉ gs ("Question: ") ++ q := by
    intro hm
    rcases List.mem_append.mp hm with hm | hm
    · exact absurd hm (by decide)
    · exact hq.2.2.2 hm
  have hsplitAll : splitCharGo '\n'
      ((('\n' :: gs ("Question: ")) ++ q) ++ ('\n' :: optLinesOf opts)) =
      [] :: (gs ("Question: ") ++ q) :: (opts.map optionLine ++ [[]]) := by
    show splitCharGo '\n'
      ('\n' :: ((gs ("Question: ") ++ q) ++ ('\n' :: optLinesOf opts))) = _
    rw [splitChar_cons_sep, splitChar_append '\n' _ _ hnq,
      splitChar_optLines opts hopts]
  have hfold : (([] : GoStr) :: (gs ("Question: ") ++ q) ::
      (opts.map optionLine ++ [[]])).foldl reviewLineStep ([], [], []) =
      (q, [], opts) := by
    rw [List.foldl_cons, reviewLineStep_nil, List.foldl_cons,
      reviewLineStep_question ([], [], []) q hq]
    show (opts.map optionLine ++ [[]]).foldl reviewLineStep (q, [], []) =
      (q, [], opts)
    rw [List.foldl_append, foldl_option_lines opts hopts q [] []]
    show reviewLineStep (q, [], [] ++ opts) [] = (q, [], opts)
    rw [reviewLineStep_nil]
    simp
  simp only [parseReviewBlock]
  rw [hsplitAll, hfold]
  show (if q = [] then none else some (ReviewRequest.mk q opts [] now)) =
    some (ReviewRequest.mk q opts [] now)
  rw [if_neg hq.1]

/-! ## C3: the round-trip theorem -/

/-- C3 counterexample: an output consisting of exactly one well-formed review
block whose closing sentinel is the end of the string.  Both sentinels occur
in the output (ordinary containment), yet the parser reports no review and an
empty WorkInProgress, because its strict scanning loop never reports a match
at the last possible position; appending one more character makes the very
same block parse. -/
theorem c3_counterexample :
    c3Out = mkReviewOutput (gs ("work so far")) (gs ("A or B?"))
      [⟨gs ("a"), gs ("Option A")⟩] [] ∧
    occursIn needsReviewMarker c3Out = true ∧
    occursIn endReviewMarker c3Out = true ∧
    parseReviewRequest 0 c3Out = ([], none, false) ∧
    parseReviewRequest 0 (c3Out ++ ['\n']) =
      (gs ("work so far"),
        some ⟨gs ("A or B?"), [⟨gs ("a"), gs ("Option A")⟩], [], 0⟩, true) := by
  refine ⟨rfl, by decide, by decide, by decide, by decide⟩

/-- C3 amended: for an output built from a prefix, one well-formed review
block (clean question and options), and a NON-EMPTY suffix after the closing
sentinel — with no stray sentinel occurrence before the block or inside it —
`parseReviewRequest` returns the trimmed prefix as WorkInProgress and a
review carrying exactly the embedded question and options.  The non-empty
suffix is necessary: with nothing after `---END_REVIEW---` the strict scan
misses the closing sentinel (see the counterexample). -/
theorem c3_review_round_trip (now : Nat) (pre q : GoStr)
    (opts : List ReviewOption) (suf : GoStr)
    (hq : cleanField q) (hopts : ∀ o ∈ opts, cleanOption o) (hsuf : suf ≠ [])
    (hpre : ∀ j, j < pre.length →
      ¬ strictAt needsReviewMarker (mkReviewOutput pre q opts suf) j)
    (hbody : ∀ j, j < pre.length + 30 + q.length + (optLinesOf opts).length →
      pre.length + 18 ≤ j →
      ¬ strictAt endReviewMarker (mkReviewOutput pre q opts suf) j) :
    parseReviewRequest now (mkReviewOutput pre q opts suf) =
      (trimGo pre, some ⟨q, opts, [], now⟩, true) := by
  have h10 : (gs ("Question: ")).length = 10 := rfl
  have hlenM : needsReviewMarker.length = 18 := rfl
  have hlenE : endReviewMarker.length = 16 := rfl
  have hsuf1 : 1 ≤ suf.length := by
    cases suf with
    | nil => exact absurd rfl hsuf
    | cons c t => simp
  have ha : mkReviewOutput pre q opts suf =
      pre ++ (needsReviewMarker ++
        (((('\n' :: gs ("Question: ")) ++ q) ++ ('\n' :: optLinesOf opts)) ++
          (endReviewMarker ++ suf))) := by
    simp [mkReviewOutput, List.append_assoc]
  have hb : mkReviewOutput pre q opts suf =
      ((pre ++ needsReviewMarker) ++
        ((('\n' :: gs ("Question: ")) ++ q) ++ ('\n' :: optLinesOf opts))) ++
        (endReviewMarker ++ suf) := by
    simp [mkReviewOutput, List.append_assoc]
  have hlenOut : (mkReviewOutput pre q opts suf).length =
      pre.length + 46 + q.length + (optLinesOf opts).length + suf.length := by
    rw [ha]
    simp only [List.length_append, List.length_cons, h10, hlenM, hlenE]
    omega
  have hlen2 : ((pre ++ needsReviewMarker) ++
      ((('\n' :: gs ("Question: ")) ++ q) ++ ('\n' :: optLinesOf opts))).length =
      pre.length + 30 + q.length + (optLinesOf opts).length := by
    simp only [List.length_append, List.length_cons, h10, hlenM]
    omega
  have hstrict1 : strictAt needsReviewMarker (mkReviewOutput pre q opts suf)
      pre.length := by
    constructor
    · rw [hlenOut, hlenM]
      omega
    · rw [ha, List.drop_left]
      exact hasPrefixGo_append _ _
  have hfind1 : findStrict needsReviewMarker (mkReviewOutput pre q opts suf) =
      some pre.length := by
    rw [findStrict_eq, findStrictFrom_some_iff]
    exact ⟨Nat.zero_le _, hstrict1, fun j _ hj => hpre j hj⟩
  have hstrict2 : strictAt endReviewMarker (mkReviewOutput pre q opts suf)
      (pre.length + 30 + q.length + (optLinesOf opts).length) := by
    constructor
    · rw [hlenOut, hlenE]
      omega
    · rw [hb, List.drop_left' hlen2]
      exact hasPrefixGo_append _ _
  have hfind2 : findStrictFrom endReviewMarker (mkReviewOutput pre q opts suf)
      (pre.length + 18) =
      some (pre.length + 30 + q.length + (optLinesOf opts).length) := by
    rw [findStrictFrom_some_iff]
    exact ⟨by omega, hstrict2, fun j hjs hjl => hbody j hjl hjs⟩
  have htakeC : (mkReviewOutput pre q opts suf).take
      (pre.length + 30 + q.length + (optLinesOf opts).length) =
      (pre ++ needsReviewMarker) ++
        ((('\n' :: gs ("Question: ")) ++ q) ++ ('\n' :: optLinesOf opts)) := by
    rw [hb]
    exact List.take_left' hlen2
  have hdropB : ((pre ++ needsReviewMarker) ++
      ((('\n' :: gs ("Question: ")) ++ q) ++ ('\n' :: optLinesOf opts))).drop
      (pre.length + 18) =
      (('\n' :: gs ("Question: ")) ++ q) ++ ('\n' :: optLinesOf opts) := by
    apply List.drop_left'
    simp only [List.length_append, hlenM]
  have htakeP : (mkReviewOutput pre q opts suf).take pre.length = pre := by
    rw [ha]
    exact List.take_left pre _
  simp only [parseReviewRequest, hfind1]
  rw [hlenM]
  simp only [hfind2]
  rw [htakeP, htakeC, hdropB, parseReviewBlock_mk now q opts hq hopts]
  rfl

/-- Witness for the amended C3 theorem at a concrete output with a newline
after the closing sentinel. -/
theorem c3_review_round_trip_witness :
    parseReviewRequest 5 (mkReviewOutput (gs ("work so far")) (gs ("A or B?"))
        [⟨gs ("a"), gs ("Option A")⟩] (gs ("\n"))) =
      (trimGo (gs ("work so far")),
        some ⟨gs ("A or B?"), [⟨gs ("a"), gs ("Option A")⟩], [], 5⟩, true) :=
  c3_review_round_trip 5 (gs ("work so far")) (gs ("A or B?"))
    [⟨gs ("a"), gs ("Option A")⟩] (gs ("\n")) (by decide) (by decide)
    (by decide) (by decide) (by decide)

end Ludwig

